import Mathlib

/-!
# Fluxmark virtual-overlay reconciliation engine: a verification development

Shallow embedding of the bookmark overlay engine:
* `buildVirtualTree` (src/sidepanel/utils/virtualTreeUtils.ts, consolidated
  variant): the pure reconciler merging an authoritative snapshot with the
  persisted `VirtualState` overlay,
* `moveBookmark` (src/sidepanel/utils/bookmarkActions.ts): the move/reorder
  engine, together with a model of the external authoritative tree store,
* `openBookmark` / flag resolution (src/sidepanel/utils/bookmarkActions.ts),
* the drag-end index arithmetic of `handleDragEnd` (side panel App).

JavaScript collections are embedded with their observable semantics:
* a `Map` is an insertion-ordered association list; `set` replaces the value
  of an existing key in place, otherwise appends,
* a plain object keyed by strings is the same representation; property reads
  are first-match lookups, `delete` erases the key,
* string truthiness: only the empty string is falsy,
* `Array.prototype.sort` with the numeric comparator used by the source is a
  stable sort by key (ES2019), embedded as a stable insertion sort,
* `Array.prototype.splice(start, 0, x)` clamps `start` to the length above,
  and a negative `start` counts from the end (`max(len + start, 0)`).

The reconciler's recursion follows the effective-children map, which an
adversarial overlay can make cyclic; the call stack is embedded as an
explicit `fuel` argument, `none` standing for a recursion that never
returns.
-/

namespace Fluxmark

/-! ## JavaScript collection semantics -/

/-- Insertion-ordered map (JS `Map`, and JS plain objects keyed by strings). -/
abbrev JsMap (α : Type) := List (String × α)

/-- `m.get(k)` (first-match lookup; keys are unique when built via `mapSet`). -/
def mapGet : JsMap α → String → Option α
  | [], _ => none
  | e :: rest, k => if e.1 == k then some e.2 else mapGet rest k

/-- `m.has(k)`. -/
def mapHas : JsMap α → String → Bool
  | [], _ => false
  | e :: rest, k => e.1 == k || mapHas rest k

/-- `m.set(k, v)`: replace the value of an existing key in place (keeping its
insertion position), otherwise append at the end. -/
def mapSet : JsMap α → String → α → JsMap α
  | [], k, v => [(k, v)]
  | e :: rest, k, v =>
    if e.1 == k then (k, v) :: rest else e :: mapSet rest k v

/-- `delete obj[k]`. -/
def objDelete (m : JsMap α) (k : String) : JsMap α :=
  m.filter (fun e => e.1 != k)

/-- JS truthiness of a string: only `""` is falsy. -/
def jsTruthy (s : String) : Bool := s != ""

/-- `a || b` on optional strings with JS truthiness. -/
def jsOrStr : Option String → Option String → Option String
  | some s, b => if jsTruthy s then some s else b
  | none, b => b

/-! ## Data model -/

/-- `chrome.bookmarks.BookmarkTreeNode`: id, title, optional url (absence ⇔
folder), optional `parentId` string, children, `dateAdded`.  The source's
`children?: BookmarkTreeNode[]` is embedded as a plain list (`undefined` and
`[]` behave identically in every traversal of the source). -/
inductive BNode : Type where
  | mk : String → String → Option String → Option String → List BNode →
      Option Nat → BNode

def BNode.id : BNode → String
  | .mk i _ _ _ _ _ => i

def BNode.title : BNode → String
  | .mk _ t _ _ _ _ => t

def BNode.url : BNode → Option String
  | .mk _ _ u _ _ _ => u

def BNode.parentId : BNode → Option String
  | .mk _ _ _ p _ _ => p

def BNode.children : BNode → List BNode
  | .mk _ _ _ _ c _ => c

def BNode.dateAdded : BNode → Option Nat
  | .mk _ _ _ _ _ d => d

/-- `VirtualState` (virtualTreeUtils.ts): the persisted overlay record. -/
structure VirtualState : Type where
  order : JsMap (List String)
  hidden : List String
  titles : JsMap String
  virtualParent : JsMap String

/-- `VirtualNode` (virtualTreeUtils.ts): the rendered node.  Fields: id,
title, url, children (`undefined` ⇔ `none`), parentId, isExpanded, isHidden,
dateAdded. -/
inductive VNode : Type where
  | mk : String → String → Option String → Option (List VNode) →
      Option String → Bool → Bool → Option Nat → VNode

def VNode.id : VNode → String
  | .mk i _ _ _ _ _ _ _ => i

def VNode.title : VNode → String
  | .mk _ t _ _ _ _ _ _ => t

def VNode.url : VNode → Option String
  | .mk _ _ u _ _ _ _ _ => u

def VNode.children : VNode → Option (List VNode)
  | .mk _ _ _ c _ _ _ _ => c

def VNode.parentId : VNode → Option String
  | .mk _ _ _ _ p _ _ _ => p

def VNode.isHidden : VNode → Bool
  | .mk _ _ _ _ _ _ h _ => h

def VNode.dateAdded : VNode → Option Nat
  | .mk _ _ _ _ _ _ _ d => d

/-- Ids of a rendered node's children list (`[]` for a bookmark). -/
def VNode.childIds (v : VNode) : List String :=
  (v.children.getD []).map VNode.id

/-! ## `buildVirtualTree` step 1: flatten the native snapshot

Source: the `flatten` closure of `buildVirtualTree` — one traversal filling
`nativeMap` (id → node) and `originalParentMap` (id → authoritative parent,
inferring the parent of unparented nodes from the traversal, with `'0'` for
the top level). -/

mutual

def flattenNode (n : BNode) (inferred : Option String)
    (acc : JsMap BNode × JsMap String) : JsMap BNode × JsMap String :=
  match n with
  | .mk i t u p c d =>
    let nm := mapSet acc.1 i (.mk i t u p c d)
    let pm := match jsOrStr p inferred with
      | some s => if jsTruthy s then mapSet acc.2 i s else acc.2
      | none => acc.2
    flattenList c (some i) (nm, pm)

def flattenList (ns : List BNode) (inferred : Option String)
    (acc : JsMap BNode × JsMap String) : JsMap BNode × JsMap String :=
  match ns with
  | [] => acc
  | n :: rest => flattenList rest inferred (flattenNode n inferred acc)

end

/-! ## Step 2: effective parents and the children map -/

/-- The effective parent of `id`: the authoritative parent, unless
`state.virtualParent[id]` is truthy and names an existing node (or `'0'`). -/
def effectiveParent (nm : JsMap BNode) (pm : JsMap String) (vp : JsMap String)
    (id : String) : Option String :=
  let base := mapGet pm id
  match mapGet vp id with
  | some t =>
    if jsTruthy t then
      if mapHas nm t || t == "0" then some t else base
    else base
  | none => base

/-- Source: the `nativeMap.forEach` loop assigning every node to its
effective parent's child list. -/
def buildChildrenMap (nm : JsMap BNode) (pm : JsMap String)
    (vp : JsMap String) : JsMap (List String) :=
  nm.foldl
    (fun cm e =>
      match effectiveParent nm pm vp e.2.id with
      | some p =>
        if jsTruthy p then mapSet cm p ((mapGet cm p).getD [] ++ [e.2.id])
        else cm
      | none => cm)
    []

/-! ## Step 3: custom order (stable sort by position in the stored order)

Source: `new Map(storedOrder.map((cid, idx) => [cid, idx]))` (a duplicate id
keeps its **last** index) and `childIds.sort((a,b) => idxA - idxB)` with the
sentinel `999999` for ids not in the stored order.  `Array.prototype.sort`
is a stable sort; any stable sort by key computes the same list, embedded
here as a stable insertion sort. -/

/-- Index of `cid` in the stored order (last occurrence, as a JS `Map` built
from `(cid, idx)` entries keeps the last), else the sentinel `999999`. -/
def orderKey (so : List String) (cid : String) : Nat :=
  match (so.enum.filter (fun e => e.2 == cid)).getLast? with
  | some e => e.1
  | none => 999999

/-- Insert `x` after every element whose key is `≤ key x` (stable). -/
def insertAfterLE (key : String → Nat) (x : String) : List String → List String
  | [] => [x]
  | y :: ys => if key y ≤ key x then y :: insertAfterLE key x ys
      else x :: y :: ys

/-- Stable sort by key. -/
def stableSortByKey (key : String → Nat) (l : List String) : List String :=
  l.foldl (fun acc x => insertAfterLE key x acc) []

/-! ## Step 4: recursive materialization -/

/-- Everything `buildNode` reads.  `virtualParent` is only consumed while
building the children map, so it is not part of the context. -/
structure BuildCtx : Type where
  nm : JsMap BNode
  cm : JsMap (List String)
  order : JsMap (List String)
  hidden : List String
  titles : JsMap String
  showHidden : Bool

/-- The effective child ids of `id`, with the stored custom order applied:
`childrenMap.get(id) || []`, sorted when `state.order[id]` exists. -/
def sortedChildIds (ctx : BuildCtx) (id : String) : List String :=
  let childIds0 := (mapGet ctx.cm id).getD []
  match mapGet ctx.order id with
  | some so => stableSortByKey (orderKey so) childIds0
  | none => childIds0

/-- The `VirtualNode` literal returned by `buildNode`: overlay title,
`children` present iff some child was built or the node is a folder,
original `parentId`, `isExpanded` false, `isHidden` from the hidden list. -/
def mkRendered (ctx : BuildCtx) (n : BNode) (kids : List VNode) : VNode :=
  VNode.mk n.id ((mapGet ctx.titles n.id).getD n.title) n.url
    (if kids.length > 0 || n.url.isNone then some kids else none)
    n.parentId false (ctx.hidden.contains n.id) n.dateAdded

/-- The body of the `childIds.forEach` loop of `buildNode`, parameterized
by the recursive call (`rec` is `buildNode` at the next stack depth): skip
ids without a native node, skip hidden children unless `showHidden`. -/
def goKids (ctx : BuildCtx) (rec : BNode → Option VNode) :
    List String → Option (List VNode)
  | [] => some []
  | cid :: rest =>
    match mapGet ctx.nm cid with
    | none => goKids ctx rec rest
    | some cn =>
      if !(ctx.hidden.contains cid) || ctx.showHidden then
        match rec cn with
        | none => none
        | some v => (goKids ctx rec rest).map (fun vs => v :: vs)
      else goKids ctx rec rest

/-- Source: the recursive `buildNode` closure.  `fuel` embeds the JS call
stack: `none` models a recursion that never returns (the source has no
cycle guard). -/
def buildNodeF (ctx : BuildCtx) : Nat → BNode → Option VNode
  | 0, _ => none
  | fuel + 1, n =>
    match goKids ctx (buildNodeF ctx fuel) (sortedChildIds ctx n.id) with
    | none => none
    | some kids => some (mkRendered ctx n kids)

/-- The children loop at recursion budget `fuel`. -/
def buildKidsF (ctx : BuildCtx) (fuel : Nat) :
    List String → Option (List VNode) :=
  goKids ctx (buildNodeF ctx fuel)

/-- The two indexes built by the flatten traversal of `buildVirtualTree`
(inferred top-level parent `'0'`). -/
def flatMaps (nativeNodes : List BNode) : JsMap BNode × JsMap String :=
  flattenList nativeNodes (some "0") ([], [])

/-- The context computed by `buildVirtualTree` from a snapshot and an
overlay state: flatten with inferred top-level parent `'0'`, then assign
effective children. -/
def mkCtx (nativeNodes : List BNode) (st : VirtualState) (showHidden : Bool) :
    BuildCtx :=
  let fl := flatMaps nativeNodes
  { nm := fl.1
    cm := buildChildrenMap fl.1 fl.2 st.virtualParent
    order := st.order
    hidden := st.hidden
    titles := st.titles
    showHidden := showHidden }

/-- Source: `return nativeNodes.map(root => buildNode(root))` — top-level
nodes are materialized unconditionally (no existence lookup, no hidden
filter). -/
def buildRootsF (ctx : BuildCtx) (fuel : Nat) : List BNode →
    Option (List VNode)
  | [] => some []
  | n :: rest =>
    match buildNodeF ctx fuel n with
    | none => none
    | some v => (buildRootsF ctx fuel rest).map (fun vs => v :: vs)

/-- `buildVirtualTree(nativeNodes, state, showHidden)` at recursion budget
`fuel`. -/
def buildVirtualTreeF (nativeNodes : List BNode) (st : VirtualState)
    (showHidden : Bool) (fuel : Nat) : Option (List VNode) :=
  buildRootsF (mkCtx nativeNodes st showHidden) fuel nativeNodes


/-! ## The authoritative tree store (external collaborator)

The host's bookmark store is not part of this repository; it is consumed
through `chrome.bookmarks.*`.  Modelled from the spec: §6 Authoritative Tree
Store (`Move(id, parentId, index?) → void | error`, `GetChildren`), §4.2
(Move uses append semantics) and §7 (error taxonomy: `NotFound` for an id
absent at mutation time; `InvalidOperation` for moving a top-level container
or moving a node into its own descendant — the root-immovability rule is
checked before the target is considered, and a non-folder target is likewise
an invalid operation). -/

mutual

def findInNode (n : BNode) (q : String) : Option BNode :=
  match n with
  | .mk i t u p c d =>
    if i == q then some (.mk i t u p c d) else findInList c q

def findInList (ns : List BNode) (q : String) : Option BNode :=
  match ns with
  | [] => none
  | n :: rest =>
    match findInNode n q with
    | some r => some r
    | none => findInList rest q

end

mutual

def subtreeIds (n : BNode) : List String :=
  match n with
  | .mk i _ _ _ c _ => i :: subtreeIdsList c

def subtreeIdsList (ns : List BNode) : List String :=
  match ns with
  | [] => []
  | n :: rest => subtreeIds n ++ subtreeIdsList rest

end

mutual

def removeIdNode (n : BNode) (q : String) : BNode :=
  match n with
  | .mk i t u p c d => .mk i t u p (removeIdList c q) d

def removeIdList (ns : List BNode) (q : String) : List BNode :=
  match ns with
  | [] => []
  | n :: rest =>
    if n.id == q then removeIdList rest q
    else removeIdNode n q :: removeIdList rest q

end

mutual

def appendChildNode (n : BNode) (q : String) (x : BNode) : BNode :=
  match n with
  | .mk i t u p c d =>
    if i == q then .mk i t u p (c ++ [x]) d
    else .mk i t u p (appendChildList c q x) d

def appendChildList (ns : List BNode) (q : String) (x : BNode) : List BNode :=
  match ns with
  | [] => []
  | n :: rest => appendChildNode n q x :: appendChildList rest q x

end

/-- Reattachment updates the moved node's `parentId`. -/
def withParent (n : BNode) (p : String) : BNode :=
  match n with
  | .mk i t u _ c d => .mk i t u (some p) c d

/-- Spec §7 failure taxonomy (the classes relevant to `Move`). -/
inductive NativeError : Type where
  | notFound : NativeError
  | invalidOperation : NativeError
deriving DecidableEq

/-- Modelled from the spec: `Move(id, parentId)` of the Authoritative Tree
Store (§6), append semantics (§4.2), failure classes of §7.  Moving a
top-level container (a direct member of the root list) is an
`InvalidOperation`, as is a non-folder target or a move into the moved
node's own subtree. -/
def nativeMove (forest : List BNode) (id target : String) :
    Except NativeError (List BNode) :=
  match findInList forest id with
  | none => .error .notFound
  | some n =>
    if forest.any (fun r => r.id == id) then .error .invalidOperation
    else
      match findInList forest target with
      | none => .error .notFound
      | some t =>
        if t.url.isSome then .error .invalidOperation
        else if (subtreeIds n).contains target then .error .invalidOperation
        else .ok (appendChildList (removeIdList forest id) target
          (withParent n target))

/-- Modelled from the spec: `GetChildren(parentId)` of the Authoritative
Tree Store (§6). -/
def getChildrenIds (forest : List BNode) (p : String) : Option (List String) :=
  (findInList forest p).map (fun n => n.children.map BNode.id)

/-! ## The move engine (`moveBookmark`, bookmarkActions.ts) -/

/-- `Array.prototype.splice(start, 0, x)`: `start` is clamped above to the
length, and a negative `start` counts from the end of the array. -/
def spliceInsert (l : List String) (start : Int) (x : String) : List String :=
  let pos : Nat :=
    if start < 0 then ((l.length : Int) + start).toNat
    else min start.toNat l.length
  l.take pos ++ x :: l.drop pos

/-- Result of `moveBookmark`: `true`, or the caught native error
(propagated verbatim as `e.message`). -/
inductive MoveOutcome : Type where
  | success : MoveOutcome
  | failure : NativeError → MoveOutcome
deriving DecidableEq

/-- Step 2 of `moveBookmark`: `if (state.virtualParent[id]) delete ...` —
the delete is guarded by JS truthiness, so a stored empty-string value is
left in place. -/
def clearedVirtualParent (st : VirtualState) (id : String) : JsMap String :=
  match mapGet st.virtualParent id with
  | some t => if jsTruthy t then objDelete st.virtualParent id
      else st.virtualParent
  | none => st.virtualParent

/-- Step (d): the target's order list before cleaning — the stored one, or
initialized from the target's current (post-move) native children with
`id` ensured present. -/
def baseTargetOrder (forest2 : List BNode) (st : VirtualState)
    (id targetParentId : String) : List String :=
  match mapGet st.order targetParentId with
  | some l => l
  | none =>
    let fromNative := (getChildrenIds forest2 targetParentId).getD []
    if fromNative.contains id then fromNative else fromNative ++ [id]

/-- The target order with `id` filtered out. -/
def cleanedTargetOrder (forest2 : List BNode) (st : VirtualState)
    (id targetParentId : String) : List String :=
  (baseTargetOrder forest2 st id targetParentId).filter (fun x => x != id)

/-- Step (e): splice `id` into the cleaned order at `index` (append when
omitted). -/
def finalTargetOrder (forest2 : List BNode) (st : VirtualState)
    (id targetParentId : String) (index : Option Int) : List String :=
  match index with
  | some k => spliceInsert (cleanedTargetOrder forest2 st id targetParentId)
      k id
  | none => cleanedTargetOrder forest2 st id targetParentId ++ [id]

/-- The overlay record saved by a successful `moveBookmark` (steps 2-5 of
the source, operating on the post-move forest): delete a truthy
`virtualParent[id]`; strip `id` from every other parent's order list; set
the target's order to the cleaned order with `id` spliced in. -/
def moveSavedState (forest2 : List BNode) (st : VirtualState)
    (id targetParentId : String) (index : Option Int) : VirtualState :=
  { order := mapSet
      (st.order.map (fun e =>
        (e.1, if e.1 == targetParentId then e.2
          else e.2.filter (fun x => x != id))))
      targetParentId (finalTargetOrder forest2 st id targetParentId index)
    hidden := st.hidden
    titles := st.titles
    virtualParent := clearedVirtualParent st id }

/-- `moveBookmark(id, targetParentId, index?)`: native move first (append
semantics); on success the overlay is updated per `moveSavedState` and
saved.  A native failure is caught before any overlay write: the overlay
is returned unchanged together with the error (`e.message` propagated
verbatim). -/
def moveBookmark (forest : List BNode) (st : VirtualState)
    (id targetParentId : String) (index : Option Int) :
    List BNode × VirtualState × MoveOutcome :=
  match nativeMove forest id targetParentId with
  | .error e => (forest, st, .failure e)
  | .ok forest2 =>
    (forest2, moveSavedState forest2 st id targetParentId index, .success)

/-! ## Drag-end index arithmetic (`handleDragEnd`, side panel App) -/

/-- Source: the "Fix for Same-Folder Move Down" block — when the drop stays
in the same effective parent and the drag goes downwards
(`activeIndex < overIndex`), the insertion index passed to `moveBookmark`
is `overIndex + 1`; otherwise it is `overIndex`. -/
def dragEndNewIndex (activeIndex overIndex : Nat) (sameFolder : Bool) : Nat :=
  if sameFolder && decide (activeIndex < overIndex) then overIndex + 1
  else overIndex

/-! ## Open-policy resolution (`openBookmark`, bookmarkActions.ts) -/

/-- `OpenFlag` = 'NF' | 'RF' | 'NB' (the TS `null` is `Option.none`). -/
inductive OpenFlag : Type where
  | NF : OpenFlag
  | RF : OpenFlag
  | NB : OpenFlag
deriving DecidableEq

/-- `getGlobalDefaultFlag`: the stored global value, or 'NB'. -/
def getGlobalDefaultFlag (stored : Option OpenFlag) : OpenFlag :=
  stored.getD .NB

/-- An effect on the tab controller: `chrome.tabs.create({url, active})` or
`chrome.tabs.update(tabId, {url})`. -/
inductive TabAction : Type where
  | createTab : String → Bool → TabAction
  | updateTab : Nat → String → TabAction
deriving DecidableEq

/-- `openBookmark(bookmark, isBackgroundClick)`: no-op without a url; a
forced-background click opens an inactive tab at once; otherwise the local
flag, else the global default ('NB' when unset), decides.  `activeTab`
models `chrome.tabs.query({active: true, currentWindow: true})`. -/
def openBookmark (url : Option String) (localFlag : Option OpenFlag)
    (globalStored : Option OpenFlag) (activeTab : Option Nat)
    (isBackgroundClick : Bool) : List TabAction :=
  match url with
  | none => []
  | some u =>
    if isBackgroundClick then [.createTab u false]
    else
      match localFlag.getD (getGlobalDefaultFlag globalStored) with
      | .NB => [.createTab u false]
      | .NF => [.createTab u true]
      | .RF =>
        match activeTab with
        | some tid => [.updateTab tid u]
        | none => [.createTab u true]


/-! ## Basic lemmas about the JS collection embedding -/

theorem mapGet_eq_some_mem {α : Type} {m : JsMap α} {k : String} {v : α}
    (h : mapGet m k = some v) : (k, v) ∈ m := by
  induction m with
  | nil => simp [mapGet] at h
  | cons e rest ih =>
    rw [mapGet] at h
    split at h
    · next he =>
      cases e with
      | mk a b =>
        simp only [beq_iff_eq] at he
        cases h
        simp [he]
    · exact List.mem_cons_of_mem _ (ih h)

theorem mapGet_mapSet_self {α : Type} (m : JsMap α) (k : String) (v : α) :
    mapGet (mapSet m k v) k = some v := by
  induction m with
  | nil => simp [mapGet, mapSet]
  | cons e rest ih =>
    rw [mapSet]
    split
    · rw [mapGet]; simp
    · next he => rw [mapGet]; simp only [he, if_false]; exact ih

theorem mapGet_mapSet_ne {α : Type} (m : JsMap α) (k q : String) (v : α)
    (h : q ≠ k) : mapGet (mapSet m k v) q = mapGet m q := by
  induction m with
  | nil => simp [mapGet, mapSet, h, Ne.symm h]
  | cons e rest ih =>
    rw [mapSet]
    split
    · next he =>
      simp only [beq_iff_eq] at he
      rw [mapGet, mapGet]
      have h1 : (k == q) = false := by simp [Ne.symm h]
      have h2 : (e.1 == q) = false := by simp [he, Ne.symm h]
      simp [h1, h2]
    · rw [mapGet, mapGet]
      split
      · rfl
      · exact ih

theorem mapGet_objDelete_self {α : Type} (m : JsMap α) (k : String) :
    mapGet (objDelete m k) k = none := by
  induction m with
  | nil => simp [mapGet, objDelete]
  | cons e rest ih =>
    rw [objDelete] at ih ⊢
    rw [List.filter]
    split
    · next he =>
      rw [mapGet]
      have : (e.1 == k) = false := by
        simp only [bne_iff_ne] at he
        simp [he]
      simp [this, ih]
    · exact ih

theorem mapGet_objDelete_ne {α : Type} (m : JsMap α) (k q : String)
    (h : q ≠ k) : mapGet (objDelete m k) q = mapGet m q := by
  induction m with
  | nil => simp [mapGet, objDelete]
  | cons e rest ih =>
    rw [objDelete] at ih ⊢
    rw [List.filter]
    split
    · rw [mapGet, mapGet]
      split
      · rfl
      · exact ih
    · next he =>
      rw [mapGet]
      have he2 : e.1 = k := by simpa using he
      have : (e.1 == q) = false := by simp [he2, Ne.symm h]
      simp [this, ih]

theorem mapHas_true_iff {α : Type} (m : JsMap α) (k : String) :
    mapHas m k = true ↔ ∃ v, mapGet m k = some v := by
  induction m with
  | nil => simp [mapGet, mapHas]
  | cons e rest ih =>
    rw [mapHas, mapGet]
    by_cases he : (e.1 == k) = true
    · simp [he]
    · simp only [he]
      simpa using ih

theorem mapHas_false_get {α : Type} {m : JsMap α} {k : String}
    (h : mapHas m k = false) : mapGet m k = none := by
  cases hg : mapGet m k with
  | none => rfl
  | some v =>
    have : mapHas m k = true := (mapHas_true_iff m k).2 ⟨v, hg⟩
    rw [h] at this
    cases this

/-- A lookup hit in a JS-mapped association list with key-preserving and
target-skipping transformation (the order-cleanup loop of `moveBookmark`). -/
theorem mapGet_map_entry {α : Type} (m : JsMap α) (q : String)
    (f : String × α → α) :
    mapGet (m.map (fun e => (e.1, f e))) q = (mapGet m q).map
      (fun v => f (q, v)) := by
  induction m with
  | nil => simp [mapGet]
  | cons e rest ih =>
    rw [List.map_cons, mapGet, mapGet]
    by_cases he : (e.1 == q) = true
    · have hq : e.1 = q := by simpa using he
      subst hq
      simp [ih]
    · simp [he, ih]

/-! ## Lemmas about the stable sort -/

theorem insertAfterLE_perm (key : String → Nat) (x : String) (l : List String) :
    (insertAfterLE key x l).Perm (x :: l) := by
  induction l with
  | nil => simp [insertAfterLE]
  | cons y ys ih =>
    rw [insertAfterLE]
    split
    · exact (ih.cons y).trans (List.Perm.swap x y ys)
    · exact List.Perm.refl _

theorem stableSortByKey_perm (key : String → Nat) (l : List String) :
    (stableSortByKey key l).Perm l := by
  suffices h : ∀ acc : List String,
      (l.foldl (fun acc x => insertAfterLE key x acc) acc).Perm (acc ++ l) by
    simpa using h []
  induction l with
  | nil => simp
  | cons y ys ih =>
    intro acc
    rw [List.foldl_cons]
    refine (ih (insertAfterLE key y acc)).trans ?_
    have h1 : (insertAfterLE key y acc ++ ys).Perm ((y :: acc) ++ ys) :=
      (insertAfterLE_perm key y acc).append_right ys
    refine h1.trans ?_
    simpa using List.perm_middle.symm

theorem insertAfterLE_pairwise (key : String → Nat) (x : String)
    {l : List String} (h : l.Pairwise (fun a b => key a ≤ key b)) :
    (insertAfterLE key x l).Pairwise (fun a b => key a ≤ key b) := by
  induction l with
  | nil => simp [insertAfterLE]
  | cons y ys ih =>
    rw [insertAfterLE]
    rw [List.pairwise_cons] at h
    split
    · next hle =>
      refine List.pairwise_cons.2 ⟨?_, ih h.2⟩
      intro b hb
      have := (insertAfterLE_perm key x ys).mem_iff.1 hb
      rcases List.mem_cons.1 this with rfl | hmem
      · exact hle
      · exact h.1 b hmem
    · next hgt =>
      push_neg at hgt
      refine List.pairwise_cons.2 ⟨?_, List.pairwise_cons.2 ⟨h.1, h.2⟩⟩
      intro b hb
      rcases List.mem_cons.1 hb with rfl | hmem
      · exact le_of_lt hgt
      · exact le_trans (le_of_lt hgt) (h.1 b hmem)

theorem stableSortByKey_pairwise (key : String → Nat) (l : List String) :
    (stableSortByKey key l).Pairwise (fun a b => key a ≤ key b) := by
  suffices h : ∀ acc : List String,
      acc.Pairwise (fun a b => key a ≤ key b) →
      (l.foldl (fun acc x => insertAfterLE key x acc) acc).Pairwise
        (fun a b => key a ≤ key b) by
    exact h [] (by simp)
  induction l with
  | nil => intro acc hacc; simpa using hacc
  | cons y ys ih =>
    intro acc hacc
    rw [List.foldl_cons]
    exact ih _ (insertAfterLE_pairwise key y hacc)

theorem insertAfterLE_filter_key (key : String → Nat) (x : String)
    {l : List String} (h : l.Pairwise (fun a b => key a ≤ key b)) (k : Nat) :
    (insertAfterLE key x l).filter (fun a => key a == k) =
      l.filter (fun a => key a == k) ++
        (if key x = k then [x] else []) := by
  induction l with
  | nil => by_cases hx : key x = k <;> simp [insertAfterLE, hx]
  | cons y ys ih =>
    rw [List.pairwise_cons] at h
    rw [insertAfterLE]
    split
    · next hle =>
      rw [List.filter, List.filter]
      cases hy : (key y == k) <;> simp [hy, ih h.2]
    · next hgt =>
      push_neg at hgt
      have hxk : (key x == k) = true → (key y == k) = false ∧
          ∀ b ∈ ys, (key b == k) = false := by
        intro hx
        simp only [beq_iff_eq] at hx
        constructor
        · simp only [beq_eq_false_iff_ne]
          omega
        · intro b hb
          have := h.1 b hb
          simp only [beq_eq_false_iff_ne]
          omega
      by_cases hx : key x = k
      · have hrest := hxk (by simpa using hx)
        have hfil : ys.filter (fun a => key a == k) = [] :=
          List.filter_eq_nil_iff.2 (by
            intro b hb
            simp [hrest.2 b hb])
        simp [List.filter, hx, hrest.1, hfil]
      · have hxf : (key x == k) = false := by simpa using hx
        simp [List.filter, hxf, hx]

theorem stableSortByKey_filter_key (key : String → Nat) (l : List String)
    (k : Nat) :
    (stableSortByKey key l).filter (fun a => key a == k) =
      l.filter (fun a => key a == k) := by
  suffices h : ∀ acc : List String,
      acc.Pairwise (fun a b => key a ≤ key b) →
      (l.foldl (fun acc x => insertAfterLE key x acc) acc).filter
          (fun a => key a == k) =
        acc.filter (fun a => key a == k) ++ l.filter (fun a => key a == k) by
    simpa using h [] (by simp)
  induction l with
  | nil => intro acc hacc; simp
  | cons y ys ih =>
    intro acc hacc
    rw [List.foldl_cons, ih _ (insertAfterLE_pairwise key y hacc),
      insertAfterLE_filter_key key y hacc k]
    simp only [List.filter_cons]
    cases hy : (key y == k) with
    | false =>
      have hne : ¬ (key y = k) := by simpa using hy
      simp [hne]
    | true =>
      have heq : key y = k := by simpa using hy
      simp [heq]


/-! ## Lemmas about the recursive materialization -/

theorem buildNodeF_zero (ctx : BuildCtx) (n : BNode) :
    buildNodeF ctx 0 n = none := rfl

theorem buildNodeF_succ (ctx : BuildCtx) (fuel : Nat) (n : BNode) :
    buildNodeF ctx (fuel + 1) n =
      (buildKidsF ctx fuel (sortedChildIds ctx n.id)).map (mkRendered ctx n) := by
  show (match goKids ctx (buildNodeF ctx fuel) (sortedChildIds ctx n.id) with
    | none => none
    | some kids => some (mkRendered ctx n kids)) =
    (goKids ctx (buildNodeF ctx fuel) (sortedChildIds ctx n.id)).map
      (mkRendered ctx n)
  cases goKids ctx (buildNodeF ctx fuel) (sortedChildIds ctx n.id) <;> rfl

theorem buildKidsF_nil (ctx : BuildCtx) (fuel : Nat) :
    buildKidsF ctx fuel [] = some [] := rfl

theorem buildKidsF_cons (ctx : BuildCtx) (fuel : Nat) (cid : String)
    (rest : List String) :
    buildKidsF ctx fuel (cid :: rest) =
      match mapGet ctx.nm cid with
      | none => buildKidsF ctx fuel rest
      | some cn =>
        if !(ctx.hidden.contains cid) || ctx.showHidden then
          match buildNodeF ctx fuel cn with
          | none => none
          | some v => (buildKidsF ctx fuel rest).map (fun vs => v :: vs)
        else buildKidsF ctx fuel rest := by
  rw [buildKidsF, goKids]

theorem buildKidsF_cons_none {ctx : BuildCtx} {fuel : Nat} {cid : String}
    {rest : List String} (hn : mapGet ctx.nm cid = none) :
    buildKidsF ctx fuel (cid :: rest) = buildKidsF ctx fuel rest := by
  rw [buildKidsF_cons, hn]

theorem buildKidsF_cons_some {ctx : BuildCtx} {fuel : Nat} {cid : String}
    {rest : List String} {cn : BNode} (hn : mapGet ctx.nm cid = some cn) :
    buildKidsF ctx fuel (cid :: rest) =
      if !(ctx.hidden.contains cid) || ctx.showHidden then
        match buildNodeF ctx fuel cn with
        | none => none
        | some v => (buildKidsF ctx fuel rest).map (fun vs => v :: vs)
      else buildKidsF ctx fuel rest := by
  rw [buildKidsF_cons, hn]

theorem buildKidsF_cons_skip {ctx : BuildCtx} {fuel : Nat} {cid : String}
    {rest : List String} {cn : BNode} (hn : mapGet ctx.nm cid = some cn)
    (hv : (!(ctx.hidden.contains cid) || ctx.showHidden) = false) :
    buildKidsF ctx fuel (cid :: rest) = buildKidsF ctx fuel rest := by
  rw [buildKidsF_cons_some hn, hv]
  rfl

theorem buildKidsF_cons_vis {ctx : BuildCtx} {fuel : Nat} {cid : String}
    {rest : List String} {cn : BNode} (hn : mapGet ctx.nm cid = some cn)
    (hv : (!(ctx.hidden.contains cid) || ctx.showHidden) = true) :
    buildKidsF ctx fuel (cid :: rest) =
      match buildNodeF ctx fuel cn with
      | none => none
      | some v => (buildKidsF ctx fuel rest).map (fun vs => v :: vs) := by
  rw [buildKidsF_cons_some hn, hv]
  rfl

theorem buildNodeF_shape {ctx : BuildCtx} {fuel : Nat} {n : BNode} {v : VNode}
    (h : buildNodeF ctx fuel n = some v) :
    ∃ f2 kids, fuel = f2 + 1 ∧
      buildKidsF ctx f2 (sortedChildIds ctx n.id) = some kids ∧
      v = mkRendered ctx n kids := by
  cases fuel with
  | zero => rw [buildNodeF_zero] at h; cases h
  | succ f2 =>
    rw [buildNodeF_succ] at h
    cases hk : buildKidsF ctx f2 (sortedChildIds ctx n.id) with
    | none => rw [hk] at h; cases h
    | some kids =>
      rw [hk] at h
      cases h
      exact ⟨f2, kids, rfl, hk, rfl⟩

theorem buildNodeF_id {ctx : BuildCtx} {fuel : Nat} {n : BNode} {v : VNode}
    (h : buildNodeF ctx fuel n = some v) : v.id = n.id := by
  obtain ⟨f2, kids, -, -, rfl⟩ := buildNodeF_shape h
  rfl

theorem buildNodeF_isHidden {ctx : BuildCtx} {fuel : Nat} {n : BNode}
    {v : VNode} (h : buildNodeF ctx fuel n = some v) :
    v.isHidden = ctx.hidden.contains n.id := by
  obtain ⟨f2, kids, -, -, rfl⟩ := buildNodeF_shape h
  rfl

theorem buildNodeF_url {ctx : BuildCtx} {fuel : Nat} {n : BNode} {v : VNode}
    (h : buildNodeF ctx fuel n = some v) : v.url = n.url := by
  obtain ⟨f2, kids, -, -, rfl⟩ := buildNodeF_shape h
  rfl

/-- The children the `childIds.forEach` loop actually recurses into: ids
with a native node that pass the visibility check. -/
def visibleKidNodes (ctx : BuildCtx) (ids : List String) : List BNode :=
  ids.filterMap (fun cid =>
    (mapGet ctx.nm cid).bind (fun cn =>
      if !(ctx.hidden.contains cid) || ctx.showHidden then some cn else none))

theorem visibleKidNodes_cons_none {ctx : BuildCtx} {cid : String}
    {rest : List String} (hn : mapGet ctx.nm cid = none) :
    visibleKidNodes ctx (cid :: rest) = visibleKidNodes ctx rest := by
  simp only [visibleKidNodes, List.filterMap_cons, hn, Option.none_bind]

theorem visibleKidNodes_cons_skip {ctx : BuildCtx} {cid : String}
    {rest : List String} {cn : BNode} (hn : mapGet ctx.nm cid = some cn)
    (hv : (!(ctx.hidden.contains cid) || ctx.showHidden) = false) :
    visibleKidNodes ctx (cid :: rest) = visibleKidNodes ctx rest := by
  simp only [visibleKidNodes, List.filterMap_cons, hn, Option.some_bind, hv,
    Bool.false_eq_true, if_false]

theorem visibleKidNodes_cons_vis {ctx : BuildCtx} {cid : String}
    {rest : List String} {cn : BNode} (hn : mapGet ctx.nm cid = some cn)
    (hv : (!(ctx.hidden.contains cid) || ctx.showHidden) = true) :
    visibleKidNodes ctx (cid :: rest) = cn :: visibleKidNodes ctx rest := by
  simp only [visibleKidNodes, List.filterMap_cons, hn, Option.some_bind, hv,
    if_true]

theorem buildKidsF_forall2 {ctx : BuildCtx} {fuel : Nat} :
    ∀ {ids : List String} {vs : List VNode},
    buildKidsF ctx fuel ids = some vs →
    List.Forall₂ (fun cn v => buildNodeF ctx fuel cn = some v)
      (visibleKidNodes ctx ids) vs := by
  intro ids
  induction ids with
  | nil =>
    intro vs h
    rw [buildKidsF_nil] at h
    cases h
    simp [visibleKidNodes]
  | cons cid rest ih =>
    intro vs h
    cases hn : mapGet ctx.nm cid with
    | none =>
      rw [buildKidsF_cons_none hn] at h
      rw [visibleKidNodes_cons_none hn]
      exact ih h
    | some cn =>
      cases hv : (!(ctx.hidden.contains cid) || ctx.showHidden) with
      | false =>
        rw [buildKidsF_cons_skip hn hv] at h
        rw [visibleKidNodes_cons_skip hn hv]
        exact ih h
      | true =>
        rw [buildKidsF_cons_vis hn hv] at h
        rw [visibleKidNodes_cons_vis hn hv]
        cases hb : buildNodeF ctx fuel cn with
        | none => rw [hb] at h; cases h
        | some v =>
          rw [hb] at h
          rcases Option.map_eq_some'.1 h with ⟨vs2, hrest, rfl⟩
          exact List.Forall₂.cons hb (ih hrest)

theorem buildKidsF_isSome {ctx : BuildCtx} {fuel : Nat} :
    ∀ {ids : List String},
    (∀ cn ∈ visibleKidNodes ctx ids, (buildNodeF ctx fuel cn).isSome) →
    (buildKidsF ctx fuel ids).isSome := by
  intro ids
  induction ids with
  | nil => intro _; rw [buildKidsF_nil]; rfl
  | cons cid rest ih =>
    intro hall
    cases hn : mapGet ctx.nm cid with
    | none =>
      rw [buildKidsF_cons_none hn]
      refine ih (fun cn hcn => hall cn ?_)
      rw [visibleKidNodes_cons_none hn]
      exact hcn
    | some cn =>
      cases hv : (!(ctx.hidden.contains cid) || ctx.showHidden) with
      | false =>
        rw [buildKidsF_cons_skip hn hv]
        refine ih (fun c hc => hall c ?_)
        rw [visibleKidNodes_cons_skip hn hv]
        exact hc
      | true =>
        rw [buildKidsF_cons_vis hn hv]
        have hvk : visibleKidNodes ctx (cid :: rest) =
            cn :: visibleKidNodes ctx rest := visibleKidNodes_cons_vis hn hv
        have hhead := hall cn (by rw [hvk]; exact List.mem_cons_self _ _)
        cases hb : buildNodeF ctx fuel cn with
        | none => rw [hb] at hhead; cases hhead
        | some v =>
          have htail : (buildKidsF ctx fuel rest).isSome = true := by
            refine ih (fun c hc => hall c ?_)
            rw [hvk]
            exact List.mem_cons_of_mem _ hc
          cases ht : buildKidsF ctx fuel rest with
          | none => rw [ht] at htail; cases htail
          | some vs => rfl

theorem buildKidsF_map_id {ctx : BuildCtx}
    (hkv : ∀ k n, mapGet ctx.nm k = some n → n.id = k) {fuel : Nat} :
    ∀ {ids : List String} {vs : List VNode},
    buildKidsF ctx fuel ids = some vs →
    vs.map VNode.id = ids.filter (fun cid => (mapGet ctx.nm cid).isSome &&
      (!(ctx.hidden.contains cid) || ctx.showHidden)) := by
  intro ids
  induction ids with
  | nil =>
    intro vs h
    rw [buildKidsF_nil] at h
    cases h
    rfl
  | cons cid rest ih =>
    intro vs h
    rw [List.filter_cons]
    cases hn : mapGet ctx.nm cid with
    | none =>
      rw [buildKidsF_cons_none hn] at h
      simp only [hn, Option.isSome_none, Bool.false_and, if_false]
      exact ih h
    | some cn =>
      cases hv : (!(ctx.hidden.contains cid) || ctx.showHidden) with
      | false =>
        rw [buildKidsF_cons_skip hn hv] at h
        simp only [hn, Option.isSome_some, Bool.true_and, hv, if_false]
        exact ih h
      | true =>
        rw [buildKidsF_cons_vis hn hv] at h
        cases hb : buildNodeF ctx fuel cn with
        | none => rw [hb] at h; cases h
        | some v =>
          rw [hb] at h
          rcases Option.map_eq_some'.1 h with ⟨vs2, hrest, rfl⟩
          simp only [hn, Option.isSome_some, Bool.true_and, hv, if_true]
          rw [List.map_cons, ih hrest, buildNodeF_id hb, hkv cid cn hn]

theorem mem_sortedChildIds {ctx : BuildCtx} {i a : String} :
    a ∈ sortedChildIds ctx i ↔ a ∈ (mapGet ctx.cm i).getD [] := by
  rw [sortedChildIds]
  cases mapGet ctx.order i with
  | none => rfl
  | some so =>
    exact (stableSortByKey_perm (orderKey so) _).mem_iff

/-! ## Relative order in a list -/

/-- `a` occurs strictly before `b`. -/
def Before (l : List String) (a b : String) : Prop :=
  List.Sublist [a, b] l

theorem before_of_pairwise {key : String → Nat} {l : List String}
    {a b : String} (hp : l.Pairwise (fun x y => key x ≤ key y)) (ha : a ∈ l)
    (hb : b ∈ l) (hk : key a < key b) : Before l a b := by
  induction l with
  | nil => cases ha
  | cons x xs ih =>
    rw [List.pairwise_cons] at hp
    rcases List.mem_cons.1 ha with rfl | ha2
    · have hbxs : b ∈ xs := by
        rcases List.mem_cons.1 hb with rfl | h2
        · omega
        · exact h2
      exact (List.singleton_sublist.2 hbxs).cons₂ a
    · rcases List.mem_cons.1 hb with rfl | hb2
      · have := hp.1 a ha2
        omega
      · exact (ih hp.2 ha2 hb2).cons x

theorem before_filter {l : List String} {p : String → Bool} {a b : String}
    (h : Before l a b) (hpa : p a = true) (hpb : p b = true) :
    Before (l.filter p) a b := by
  have h2 := List.Sublist.filter p h
  simpa [List.filter_cons, hpa, hpb] using h2

theorem before_of_filter {l : List String} {p : String → Bool} {a b : String}
    (h : Before (l.filter p) a b) : Before l a b :=
  h.trans (List.filter_sublist l)

/-- A permutation sorted the same way by a key that is injective on its
elements is unique. -/
theorem eq_of_perm_of_pairwiseKey {key : String → Nat} :
    ∀ {l1 l2 : List String}, l1.Perm l2 →
    l1.Pairwise (fun x y => key x ≤ key y) →
    l2.Pairwise (fun x y => key x ≤ key y) →
    (∀ a ∈ l1, ∀ b ∈ l1, key a = key b → a = b) → l1 = l2 := by
  intro l1
  induction l1 with
  | nil =>
    intro l2 hperm _ _ _
    exact (hperm.symm.eq_nil).symm
  | cons x xs ih =>
    intro l2 hperm hp1 hp2 hinj
    cases l2 with
    | nil => cases hperm.eq_nil
    | cons y ys =>
      rw [List.pairwise_cons] at hp1 hp2
      have hxy : x = y := by
        have hx2 : x ∈ y :: ys := hperm.mem_iff.1 (List.mem_cons_self _ _)
        have hy1 : y ∈ x :: xs := hperm.symm.mem_iff.1 (List.mem_cons_self _ _)
        rcases List.mem_cons.1 hx2 with h | hx3
        · exact h
        · rcases List.mem_cons.1 hy1 with h | hy3
          · exact h.symm
          · have k1 : key x ≤ key y := hp1.1 y hy3
            have k2 : key y ≤ key x := hp2.1 x hx3
            exact hinj x (List.mem_cons_self _ _) y
              (List.mem_cons_of_mem _ hy3) (by omega)
      subst hxy
      have htail : xs.Perm ys := hperm.cons_inv
      rw [ih htail hp1.2 hp2.2
        (fun a ha b hb => hinj a (List.mem_cons_of_mem _ ha)
          b (List.mem_cons_of_mem _ hb))]


/-! ## The snapshot as a set of nodes -/

mutual

def allNodesOf (n : BNode) : List BNode :=
  match n with
  | .mk i t u p c d => .mk i t u p c d :: allNodesList c

def allNodesList (ns : List BNode) : List BNode :=
  match ns with
  | [] => []
  | n :: rest => allNodesOf n ++ allNodesList rest

end

/-- All ids of the authoritative snapshot. -/
def allIds (ns : List BNode) : List String :=
  (allNodesList ns).map BNode.id

/-! ## Invariants of the flatten traversal -/

theorem mem_of_mapGet_eq_some {α : Type} {m : JsMap α} {k : String} {v : α}
    (h : mapGet m k = some v) : (k, v) ∈ m := mapGet_eq_some_mem h

theorem mapHas_of_mem {α : Type} {m : JsMap α} {k : String} {v : α}
    (h : (k, v) ∈ m) : mapHas m k = true := by
  induction m with
  | nil => cases h
  | cons e rest ih =>
    rw [mapHas]
    rcases List.mem_cons.1 h with rfl | h2
    · simp
    · rw [ih h2, Bool.or_true]

/-- Keys of a JS map. -/
def mapKeys {α : Type} (m : JsMap α) : List String := m.map Prod.fst

theorem mapKeys_mapSet_of_has {α : Type} {m : JsMap α} {k : String} (v : α)
    (h : mapHas m k = true) : mapKeys (mapSet m k v) = mapKeys m := by
  induction m with
  | nil => cases h
  | cons e rest ih =>
    rw [mapHas] at h
    rw [mapSet]
    split
    · next he =>
      have : e.1 = k := by simpa using he
      simp [mapKeys, this]
    · next he =>
      have h2 : mapHas rest k = true := by
        rcases Bool.or_eq_true_iff.1 h with h1 | h1
        · rw [h1] at he; cases he rfl
        · exact h1
      simp [mapKeys] at ih ⊢
      exact ih h2

theorem mapKeys_mapSet_of_not_has {α : Type} {m : JsMap α} {k : String}
    (v : α) (h : mapHas m k = false) :
    mapKeys (mapSet m k v) = mapKeys m ++ [k] := by
  induction m with
  | nil => simp [mapKeys, mapSet]
  | cons e rest ih =>
    rw [mapHas] at h
    rcases Bool.or_eq_false_iff.1 h with ⟨h1, h2⟩
    rw [mapSet]
    split
    · next he => rw [h1] at he; cases he
    · simp [mapKeys] at ih ⊢
      exact ih h2

theorem not_mem_keys_of_not_has {α : Type} {m : JsMap α} {k : String}
    (h : mapHas m k = false) : k ∉ mapKeys m := by
  intro hk
  rcases List.mem_map.1 hk with ⟨e, he, rfl⟩
  have h2 : (e.1, e.2) ∈ m := by simpa using he
  have := mapHas_of_mem h2
  rw [h] at this
  cases this

theorem mapKeys_nodup_mapSet {α : Type} {m : JsMap α} {k : String} (v : α)
    (h : (mapKeys m).Nodup) : (mapKeys (mapSet m k v)).Nodup := by
  cases hh : mapHas m k with
  | true => rw [mapKeys_mapSet_of_has v hh]; exact h
  | false =>
    rw [mapKeys_mapSet_of_not_has v hh]
    rw [List.nodup_append]
    refine ⟨h, List.nodup_singleton k, ?_⟩
    intro a ha hb
    rw [List.mem_singleton] at hb
    subst hb
    exact not_mem_keys_of_not_has hh ha

mutual

theorem flattenNode_nm_keys_nodup (n : BNode) (inferred : Option String)
    (acc : JsMap BNode × JsMap String) (h : (mapKeys acc.1).Nodup) :
    (mapKeys (flattenNode n inferred acc).1).Nodup := by
  cases n with
  | mk i t u p c d =>
    rw [flattenNode]
    exact flattenList_nm_keys_nodup c (some i) _ (mapKeys_nodup_mapSet _ h)

theorem flattenList_nm_keys_nodup (ns : List BNode) (inferred : Option String)
    (acc : JsMap BNode × JsMap String) (h : (mapKeys acc.1).Nodup) :
    (mapKeys (flattenList ns inferred acc).1).Nodup := by
  cases ns with
  | nil => rw [flattenList]; exact h
  | cons n rest =>
    rw [flattenList]
    exact flattenList_nm_keys_nodup rest inferred _
      (flattenNode_nm_keys_nodup n inferred acc h)

end

mutual

theorem flattenNode_nm_val (n : BNode) (inferred : Option String)
    (acc : JsMap BNode × JsMap String) (k : String) (v : BNode)
    (h : mapGet (flattenNode n inferred acc).1 k = some v) :
    mapGet acc.1 k = some v ∨ (v ∈ allNodesOf n ∧ v.id = k) := by
  cases n with
  | mk i t u p c d =>
    rw [flattenNode] at h
    rcases flattenList_nm_val c (some i) _ k v h with h2 | h2
    · by_cases hik : i = k
      · subst hik
        rw [mapGet_mapSet_self] at h2
        cases h2
        right
        exact ⟨by rw [allNodesOf]; exact List.mem_cons_self _ _, rfl⟩
      · rw [mapGet_mapSet_ne _ _ _ _ (fun hq => hik hq.symm)] at h2
        exact Or.inl h2
    · right
      refine ⟨?_, h2.2⟩
      rw [allNodesOf]
      exact List.mem_cons_of_mem _ h2.1

theorem flattenList_nm_val (ns : List BNode) (inferred : Option String)
    (acc : JsMap BNode × JsMap String) (k : String) (v : BNode)
    (h : mapGet (flattenList ns inferred acc).1 k = some v) :
    mapGet acc.1 k = some v ∨ (v ∈ allNodesList ns ∧ v.id = k) := by
  cases ns with
  | nil => rw [flattenList] at h; exact Or.inl h
  | cons n rest =>
    rw [flattenList] at h
    rcases flattenList_nm_val rest inferred _ k v h with h2 | h2
    · rcases flattenNode_nm_val n inferred acc k v h2 with h3 | h3
      · exact Or.inl h3
      · right
        rw [allNodesList]
        exact ⟨List.mem_append_left _ h3.1, h3.2⟩
    · right
      rw [allNodesList]
      exact ⟨List.mem_append_right _ h2.1, h2.2⟩

end

theorem mapHas_mapSet_mono {α : Type} {m : JsMap α} {q : String}
    (k : String) (v : α) (h : mapHas m q = true) :
    mapHas (mapSet m k v) q = true := by
  by_cases hq : q = k
  · subst hq
    exact mapHas_of_mem (mapGet_eq_some_mem (mapGet_mapSet_self m q v))
  · rcases (mapHas_true_iff m q).1 h with ⟨w, hw⟩
    have hw2 : mapGet (mapSet m k v) q = some w := by
      rw [mapGet_mapSet_ne _ _ _ _ hq]
      exact hw
    exact mapHas_of_mem (mapGet_eq_some_mem hw2)

mutual

theorem flattenNode_nm_mono (n : BNode) (inferred : Option String)
    (acc : JsMap BNode × JsMap String) (x : String)
    (h : mapHas acc.1 x = true) :
    mapHas (flattenNode n inferred acc).1 x = true := by
  cases n with
  | mk i t u p c d =>
    rw [flattenNode]
    exact flattenList_nm_mono c (some i) _ x (mapHas_mapSet_mono _ _ h)

theorem flattenList_nm_mono (ns : List BNode) (inferred : Option String)
    (acc : JsMap BNode × JsMap String) (x : String)
    (h : mapHas acc.1 x = true) :
    mapHas (flattenList ns inferred acc).1 x = true := by
  cases ns with
  | nil => rw [flattenList]; exact h
  | cons n rest =>
    rw [flattenList]
    exact flattenList_nm_mono rest inferred _ x
      (flattenNode_nm_mono n inferred acc x h)

end

mutual

theorem flattenNode_nm_cover (n : BNode) (inferred : Option String)
    (acc : JsMap BNode × JsMap String) (z : BNode)
    (h : z ∈ allNodesOf n) :
    mapHas (flattenNode n inferred acc).1 z.id = true := by
  cases n with
  | mk i t u p c d =>
    rw [allNodesOf] at h
    rw [flattenNode]
    rcases List.mem_cons.1 h with rfl | h2
    · exact flattenList_nm_mono c (some i) _ _
        (mapHas_of_mem (mapGet_eq_some_mem (mapGet_mapSet_self acc.1 _ _)))
    · exact flattenList_nm_cover c (some i) _ z h2

theorem flattenList_nm_cover (ns : List BNode) (inferred : Option String)
    (acc : JsMap BNode × JsMap String) (z : BNode)
    (h : z ∈ allNodesList ns) :
    mapHas (flattenList ns inferred acc).1 z.id = true := by
  cases ns with
  | nil => cases h
  | cons n rest =>
    rw [allNodesList] at h
    rw [flattenList]
    rcases List.mem_append.1 h with h2 | h2
    · exact flattenList_nm_mono rest inferred _ _
        (flattenNode_nm_cover n inferred acc z h2)
    · exact flattenList_nm_cover rest inferred _ z h2

end


/-! ## Invariants of the effective-children map -/

theorem mem_mapSet {α : Type} {m : JsMap α} {k : String} {v : α}
    {e : String × α} (h : e ∈ mapSet m k v) : e ∈ m ∨ e = (k, v) := by
  induction m with
  | nil => simp [mapSet] at h; simp [h]
  | cons e2 rest ih =>
    rw [mapSet] at h
    split at h
    · rcases List.mem_cons.1 h with rfl | h2
      · exact Or.inr rfl
      · exact Or.inl (List.mem_cons_of_mem _ h2)
    · rcases List.mem_cons.1 h with rfl | h2
      · exact Or.inl (List.mem_cons_self _ _)
      · rcases ih h2 with h3 | h3
        · exact Or.inl (List.mem_cons_of_mem _ h3)
        · exact Or.inr h3

mutual

theorem flattenNode_nm_entry (n : BNode) (inferred : Option String)
    (acc : JsMap BNode × JsMap String) (e : String × BNode)
    (h : e ∈ (flattenNode n inferred acc).1) :
    e ∈ acc.1 ∨ e.2.id = e.1 := by
  cases n with
  | mk i t u p c d =>
    rw [flattenNode] at h
    rcases flattenList_nm_entry c (some i) _ e h with h2 | h2
    · rcases mem_mapSet h2 with h3 | h3
      · exact Or.inl h3
      · subst h3
        exact Or.inr rfl
    · exact Or.inr h2

theorem flattenList_nm_entry (ns : List BNode) (inferred : Option String)
    (acc : JsMap BNode × JsMap String) (e : String × BNode)
    (h : e ∈ (flattenList ns inferred acc).1) :
    e ∈ acc.1 ∨ e.2.id = e.1 := by
  cases ns with
  | nil => rw [flattenList] at h; exact Or.inl h
  | cons n rest =>
    rw [flattenList] at h
    rcases flattenList_nm_entry rest inferred _ e h with h2 | h2
    · exact flattenNode_nm_entry n inferred acc e h2
    · exact Or.inr h2

end

/-- All child ids stored anywhere in the children map. -/
def cmFlat (cm : JsMap (List String)) : List String :=
  (cm.map (fun e => e.2)).flatten

theorem cmFlat_cons (e : String × List String) (m : JsMap (List String)) :
    cmFlat (e :: m) = e.2 ++ cmFlat m := rfl

/-- One iteration of the `nativeMap.forEach` loop building the children
map. -/
def cmStep (nm : JsMap BNode) (pm vp : JsMap String)
    (cm : JsMap (List String)) (e : String × BNode) : JsMap (List String) :=
  match effectiveParent nm pm vp e.2.id with
  | some p =>
    if jsTruthy p then mapSet cm p ((mapGet cm p).getD [] ++ [e.2.id])
    else cm
  | none => cm

theorem buildChildrenMap_eq_foldl (nm : JsMap BNode) (pm vp : JsMap String) :
    buildChildrenMap nm pm vp = nm.foldl (cmStep nm pm vp) [] := rfl

theorem cmStep_none {nm : JsMap BNode} {pm vp : JsMap String}
    {cm : JsMap (List String)} {e : String × BNode}
    (h : effectiveParent nm pm vp e.2.id = none) :
    cmStep nm pm vp cm e = cm := by
  rw [cmStep, h]

theorem cmStep_some {nm : JsMap BNode} {pm vp : JsMap String}
    {cm : JsMap (List String)} {e : String × BNode} {p : String}
    (h : effectiveParent nm pm vp e.2.id = some p) :
    cmStep nm pm vp cm e =
      if jsTruthy p then mapSet cm p ((mapGet cm p).getD [] ++ [e.2.id])
      else cm := by
  rw [cmStep, h]

theorem cmFlat_push (cm : JsMap (List String)) (p x c : String) :
    (cmFlat (mapSet cm p ((mapGet cm p).getD [] ++ [x]))).count c =
      (cmFlat cm).count c + (if x = c then 1 else 0) := by
  induction cm with
  | nil =>
    by_cases hx : x = c <;>
      simp [cmFlat, mapSet, mapGet, List.count_cons, hx]
  | cons e rest ih =>
    rw [mapGet, mapSet]
    by_cases he : (e.1 == p) = true
    · rw [if_pos he, if_pos he, cmFlat_cons, cmFlat_cons]
      by_cases hx : x = c <;>
        simp [List.count_append, List.count_cons, hx, Nat.add_assoc,
          Nat.add_comm]
    · rw [if_neg he, if_neg he, cmFlat_cons, cmFlat_cons]
      rw [List.count_append, List.count_append, ih]
      omega

theorem cmFoldl_count (nm : JsMap BNode) (pm vp : JsMap String) :
    ∀ (entries : List (String × BNode)) (cm : JsMap (List String))
      (c : String),
    (cmFlat (entries.foldl (cmStep nm pm vp) cm)).count c ≤
      (cmFlat cm).count c + (entries.map (fun e => e.2.id)).count c := by
  intro entries
  induction entries with
  | nil => simp
  | cons e rest ih =>
    intro cm c
    rw [List.foldl_cons]
    refine le_trans (ih _ c) ?_
    have hstep : (cmFlat (cmStep nm pm vp cm e)).count c ≤
        (cmFlat cm).count c + (if e.2.id = c then 1 else 0) := by
      cases hep : effectiveParent nm pm vp e.2.id with
      | none => rw [cmStep_none hep]; omega
      | some p =>
        rw [cmStep_some hep]
        split
        · rw [cmFlat_push]
        · omega
    rw [List.map_cons, List.count_cons]
    by_cases hx : e.2.id = c
    · simp only [hx, beq_self_eq_true, if_true] at hstep ⊢
      omega
    · have hx2 : (e.2.id == c) = false := by simp [hx]
      simp only [hx, if_false] at hstep
      simp only [hx2, if_false]
      omega

theorem cmFoldl_mem (nm : JsMap BNode) (pm vp : JsMap String) :
    ∀ (entries : List (String × BNode)) (cm : JsMap (List String)),
    (∀ p l, mapGet cm p = some l → ∀ c ∈ l,
      (∃ e ∈ nm, e.2.id = c) ∧ effectiveParent nm pm vp c = some p ∧
        jsTruthy p = true) →
    (∀ e ∈ entries, e ∈ nm) →
    ∀ p l, mapGet (entries.foldl (cmStep nm pm vp) cm) p = some l →
    ∀ c ∈ l, (∃ e ∈ nm, e.2.id = c) ∧
      effectiveParent nm pm vp c = some p ∧ jsTruthy p = true := by
  intro entries
  induction entries with
  | nil =>
    intro cm hcm _
    exact hcm
  | cons e rest ih =>
    intro cm hcm hent
    rw [List.foldl_cons]
    refine ih _ ?_ (fun e2 he2 => hent e2 (List.mem_cons_of_mem _ he2))
    intro p l hget c hc
    cases hep : effectiveParent nm pm vp e.2.id with
    | none =>
      rw [cmStep_none hep] at hget
      exact hcm p l hget c hc
    | some p2 =>
      rw [cmStep_some hep] at hget
      by_cases htr : jsTruthy p2 = true
      · rw [if_pos htr] at hget
        by_cases hpq : p = p2
        · subst hpq
          rw [mapGet_mapSet_self] at hget
          cases hget
          rcases List.mem_append.1 hc with hc2 | hc2
          · cases hget0 : mapGet cm p with
            | none => rw [hget0] at hc2; cases hc2
            | some l0 =>
              rw [hget0] at hc2
              exact hcm p l0 hget0 c hc2
          · rw [List.mem_singleton] at hc2
            subst hc2
            exact ⟨⟨e, hent e (List.mem_cons_self _ _), rfl⟩, hep, htr⟩
        · rw [mapGet_mapSet_ne _ _ _ _ hpq] at hget
          exact hcm p l hget c hc
      · rw [if_neg htr] at hget
        exact hcm p l hget c hc

theorem count_le_cmFlat {cm : JsMap (List String)} {e : String × List String}
    (h : e ∈ cm) (c : String) : e.2.count c ≤ (cmFlat cm).count c := by
  induction cm with
  | nil => cases h
  | cons e2 rest ih =>
    rw [cmFlat_cons, List.count_append]
    rcases List.mem_cons.1 h with rfl | h2
    · omega
    · have := ih h2
      omega

theorem counts_two_cmFlat {cm : JsMap (List String)} {p q : String}
    {lp lq : List String} (hp : (p, lp) ∈ cm) (hq : (q, lq) ∈ cm)
    (hne : p ≠ q) (c : String) :
    lp.count c + lq.count c ≤ (cmFlat cm).count c := by
  induction cm with
  | nil => cases hp
  | cons e rest ih =>
    rw [cmFlat_cons, List.count_append]
    rcases List.mem_cons.1 hp with rfl | hp2
    · rcases List.mem_cons.1 hq with heq | hq2
      · simp only [Prod.mk.injEq] at heq
        exact absurd heq.1.symm hne
      · have := count_le_cmFlat hq2 c
        simp only at this ⊢
        omega
    · rcases List.mem_cons.1 hq with rfl | hq2
      · have := count_le_cmFlat hp2 c
        simp only at this ⊢
        omega
      · have := ih hp2 hq2
        omega


/-! ## The flatten and children-map invariants, packaged for `mkCtx` -/

theorem mkCtx_nm_val {nodes : List BNode} {st : VirtualState} {sh : Bool}
    {k : String} {v : BNode} (h : mapGet (mkCtx nodes st sh).nm k = some v) :
    v ∈ allNodesList nodes ∧ v.id = k := by
  have h2 := flattenList_nm_val nodes (some "0") ([], []) k v h
  rcases h2 with h3 | h3
  · simp [mapGet] at h3
  · exact h3

theorem mkCtx_hkv (nodes : List BNode) (st : VirtualState) (sh : Bool) :
    ∀ k v, mapGet (mkCtx nodes st sh).nm k = some v → v.id = k :=
  fun _ _ h => (mkCtx_nm_val h).2

theorem mkCtx_nm_entry {nodes : List BNode} {st : VirtualState} {sh : Bool}
    {e : String × BNode} (h : e ∈ (mkCtx nodes st sh).nm) : e.2.id = e.1 := by
  rcases flattenList_nm_entry nodes (some "0") ([], []) e h with h2 | h2
  · cases h2
  · exact h2

theorem mkCtx_nm_keys_nodup (nodes : List BNode) (st : VirtualState)
    (sh : Bool) : (mapKeys (mkCtx nodes st sh).nm).Nodup :=
  flattenList_nm_keys_nodup nodes (some "0") ([], []) (by simp [mapKeys])

theorem mkCtx_nm_cover {nodes : List BNode} (st : VirtualState) (sh : Bool)
    {z : BNode} (h : z ∈ allNodesList nodes) :
    mapHas (mkCtx nodes st sh).nm z.id = true :=
  flattenList_nm_cover nodes (some "0") ([], []) z h

theorem mkCtx_cm_mem {nodes : List BNode} {st : VirtualState} {sh : Bool}
    {p : String} {l : List String}
    (h : mapGet (mkCtx nodes st sh).cm p = some l) :
    ∀ c ∈ l, mapHas (mkCtx nodes st sh).nm c = true ∧
      effectiveParent (mkCtx nodes st sh).nm (flatMaps nodes).2
        st.virtualParent c = some p ∧ jsTruthy p = true := by
  intro c hc
  have h2 := cmFoldl_mem (flatMaps nodes).1 (flatMaps nodes).2
    st.virtualParent (flatMaps nodes).1 []
    (by intro p2 l2 hget; simp [mapGet] at hget) (fun e he => he) p l h c hc
  obtain ⟨⟨e, he, hid⟩, hep, htr⟩ := h2
  refine ⟨?_, hep, htr⟩
  have hkey : e.2.id = e.1 := @mkCtx_nm_entry nodes st sh e he
  have hmem : (e.1, e.2) ∈ (mkCtx nodes st sh).nm := by simpa using he
  rw [← hid, hkey]
  exact mapHas_of_mem hmem

theorem mkCtx_cmFlat_count (nodes : List BNode) (st : VirtualState)
    (sh : Bool) (c : String) :
    (cmFlat (mkCtx nodes st sh).cm).count c ≤ 1 := by
  have h1 := cmFoldl_count (flatMaps nodes).1 (flatMaps nodes).2
    st.virtualParent (flatMaps nodes).1 [] c
  have hmapeq : ((flatMaps nodes).1.map (fun e => e.2.id)) =
      mapKeys (flatMaps nodes).1 :=
    List.map_congr_left (fun e he => @mkCtx_nm_entry nodes st sh e he)
  rw [hmapeq] at h1
  have h2 := List.nodup_iff_count_le_one.1
    (mkCtx_nm_keys_nodup nodes st sh) c
  have h0 : (cmFlat ([] : JsMap (List String))).count c = 0 := rfl
  rw [h0] at h1
  have hgoal : (cmFlat (mkCtx nodes st sh).cm).count c =
      (cmFlat ((flatMaps nodes).1.foldl
        (cmStep (flatMaps nodes).1 (flatMaps nodes).2 st.virtualParent)
        [])).count c := rfl
  have hkeys : mapKeys (mkCtx nodes st sh).nm =
      mapKeys (flatMaps nodes).1 := rfl
  rw [hkeys] at h2
  rw [hgoal]
  omega

theorem mkCtx_cm_nodup {nodes : List BNode} {st : VirtualState} {sh : Bool}
    {p : String} {l : List String}
    (h : mapGet (mkCtx nodes st sh).cm p = some l) : l.Nodup := by
  rw [List.nodup_iff_count_le_one]
  intro a
  have h2 := count_le_cmFlat (mapGet_eq_some_mem h) a
  have h3 := mkCtx_cmFlat_count nodes st sh a
  simp only at h2
  omega

theorem mkCtx_cm_unique {nodes : List BNode} {st : VirtualState} {sh : Bool}
    {p q c : String} {lp lq : List String}
    (hp : mapGet (mkCtx nodes st sh).cm p = some lp)
    (hq : mapGet (mkCtx nodes st sh).cm q = some lq)
    (hcp : c ∈ lp) (hcq : c ∈ lq) : p = q := by
  by_contra hne
  have h2 := counts_two_cmFlat (mapGet_eq_some_mem hp)
    (mapGet_eq_some_mem hq) hne c
  have h3 := mkCtx_cmFlat_count nodes st sh c
  have h4 := List.count_pos_iff.2 hcp
  have h5 := List.count_pos_iff.2 hcq
  simp only at h2
  omega


/-! ## Helper lemmas for roots and the native store -/

theorem buildRootsF_cons_none {ctx : BuildCtx} {fuel : Nat} {n : BNode}
    {rest : List BNode} (h : buildNodeF ctx fuel n = none) :
    buildRootsF ctx fuel (n :: rest) = none := by
  rw [buildRootsF, h]

theorem buildRootsF_cons_some {ctx : BuildCtx} {fuel : Nat} {n : BNode}
    {rest : List BNode} {v : VNode} (h : buildNodeF ctx fuel n = some v) :
    buildRootsF ctx fuel (n :: rest) =
      (buildRootsF ctx fuel rest).map (fun vs => v :: vs) := by
  rw [buildRootsF, h]

theorem buildRootsF_forall2 {ctx : BuildCtx} {fuel : Nat} :
    ∀ {ns : List BNode} {out : List VNode},
    buildRootsF ctx fuel ns = some out →
    List.Forall₂ (fun n v => buildNodeF ctx fuel n = some v) ns out := by
  intro ns
  induction ns with
  | nil =>
    intro out h
    rw [buildRootsF] at h
    cases h
    exact List.Forall₂.nil
  | cons n rest ih =>
    intro out h
    cases hb : buildNodeF ctx fuel n with
    | none => rw [buildRootsF_cons_none hb] at h; cases h
    | some v =>
      rw [buildRootsF_cons_some hb] at h
      rcases Option.map_eq_some'.1 h with ⟨vs, hrest, rfl⟩
      exact List.Forall₂.cons hb (ih hrest)

theorem buildRootsF_isSome {ctx : BuildCtx} {fuel : Nat} :
    ∀ {ns : List BNode},
    (∀ n ∈ ns, (buildNodeF ctx fuel n).isSome) →
    (buildRootsF ctx fuel ns).isSome := by
  intro ns
  induction ns with
  | nil => intro _; rw [buildRootsF]; rfl
  | cons n rest ih =>
    intro hall
    have hh := hall n (List.mem_cons_self _ _)
    cases hb : buildNodeF ctx fuel n with
    | none => rw [hb] at hh; cases hh
    | some v =>
      rw [buildRootsF_cons_some hb]
      have ht := ih (fun m hm => hall m (List.mem_cons_of_mem _ hm))
      cases hr : buildRootsF ctx fuel rest with
      | none => rw [hr] at ht; cases ht
      | some vs => rfl

theorem mem_visibleKidNodes {ctx : BuildCtx} {ids : List String} {cn : BNode}
    (h : cn ∈ visibleKidNodes ctx ids) :
    ∃ cid ∈ ids, mapGet ctx.nm cid = some cn ∧
      (!(ctx.hidden.contains cid) || ctx.showHidden) = true := by
  rcases List.mem_filterMap.1 h with ⟨cid, hcid, hf⟩
  refine ⟨cid, hcid, ?_⟩
  cases hn : mapGet ctx.nm cid with
  | none => rw [hn] at hf; cases hf
  | some cn2 =>
    rw [hn] at hf
    rw [Option.some_bind] at hf
    by_cases hv : (!(ctx.hidden.contains cid) || ctx.showHidden) = true
    · rw [if_pos hv] at hf
      cases hf
      exact ⟨rfl, hv⟩
    · rw [if_neg hv] at hf
      cases hf

theorem findInList_isSome_of_any {forest : List BNode} {id : String}
    (h : forest.any (fun r => r.id == id) = true) :
    ∃ n, findInList forest id = some n := by
  induction forest with
  | nil => cases h
  | cons r rest ih =>
    rw [List.any_cons] at h
    rw [findInList]
    cases hr : findInNode r id with
    | some n => exact ⟨n, rfl⟩
    | none =>
      rcases Bool.or_eq_true_iff.1 h with h1 | h1
      · exfalso
        cases r with
        | mk i t u p c d =>
          rw [findInNode] at hr
          have h2 : (i == id) = true := h1
          rw [if_pos h2] at hr
          cases hr
      · exact ih h1

/-- Modelled from the spec (§6, §7): an attempt to move a top-level
container fails as an `InvalidOperation` before anything else is
considered. -/
theorem nativeMove_top {forest : List BNode} {id : String} (target : String)
    (htop : forest.any (fun r => r.id == id) = true) :
    nativeMove forest id target =
      Except.error NativeError.invalidOperation := by
  obtain ⟨n, hf⟩ := findInList_isSome_of_any htop
  rw [nativeMove, hf]
  simp only [htop, if_true]

/-! ## C9: open-policy resolution -/

/-- C9: for every bookmark open request (url present): a set local per-id
flag fully determines the behavior, the stored global default being
irrelevant; an unset local flag defers to the stored global default, which
then behaves exactly as a local flag would; with neither set the bookmark
opens as a new background (inactive) tab; and a forced-background
invocation always creates an inactive tab without consulting either flag. -/
theorem c9_flag_resolution (u : String) (tab : Option Nat) :
    (∀ f g g2, openBookmark (some u) (some f) g tab false =
      openBookmark (some u) (some f) g2 tab false) ∧
    (∀ g lf2, openBookmark (some u) none (some g) tab false =
      openBookmark (some u) (some g) lf2 tab false) ∧
    openBookmark (some u) none none tab false =
      [TabAction.createTab u false] ∧
    (∀ lf g, openBookmark (some u) lf g tab true =
      [TabAction.createTab u false]) := by
  refine ⟨?_, ?_, ?_, ?_⟩
  · intro f g g2
    cases f <;> rfl
  · intro g lf2
    cases g <;> rfl
  · rfl
  · intro lf g
    rfl

/-! ## C1: the same-parent reorder-on-drop off-by-one -/

/-- C1 fixture: one top-level container `'1'` holding bookmarks
`a, x, b, c`, with a stored order `[a, x, b, c]` for that parent. -/
def c1Forest : List BNode :=
  [BNode.mk "1" "Bar" none (some "0")
    [BNode.mk "a" "a" (some "ua") (some "1") [] none,
     BNode.mk "x" "x" (some "ux") (some "1") [] none,
     BNode.mk "b" "b" (some "ub") (some "1") [] none,
     BNode.mk "c" "c" (some "uc") (some "1") [] none] none]

def c1State : VirtualState :=
  { order := [("1", ["a", "x", "b", "c"])], hidden := [], titles := [],
    virtualParent := [] }

/-- C1: dragging `a` (sourceIndex 0) onto `b` (targetIndex 2) inside the
same parent takes the documented `targetIndex + 1 = 3` branch of
`handleDragEnd` and `moveBookmark` then splices `a` into the cleaned order
`[x, b, c]` at 3, so the stored order becomes `[x, b, c, a]`: the dragged
id lands after `c`, at the end, not immediately following `b`.  Removing
the source id shifts `b` down to index 1, so the promised outcome would
need insertion index `targetIndex`, not `targetIndex + 1`; the code
contradicts its own comment ("place after the over node") and §8's stated
outcome whenever the drop target is not the last element. -/
theorem c1_reorder_lands_past_target :
    dragEndNewIndex 0 2 true = 3 ∧
    (moveBookmark c1Forest c1State "a" "1" (some 3)).2.2 =
      MoveOutcome.success ∧
    mapGet (moveBookmark c1Forest c1State "a" "1" (some 3)).2.1.order "1" =
      some ["x", "b", "c", "a"] ∧
    ["x", "b", "c", "a"].indexOf "a" ≠ ["x", "b", "c", "a"].indexOf "b" + 1 := by
  refine ⟨rfl, rfl, rfl, by decide⟩

/-! ## C4: top-level containers are immovable -/

/-- C4: for a top-level container (a direct member of the root list, whose
effective parent is the synthetic root `'0'`), `moveBookmark` fails with
the authoritative store's `InvalidOperation` for every target parent and
index, and returns the authoritative forest and the persisted overlay
state unchanged (the overlay save is never reached). -/
theorem c4_root_immovable (forest : List BNode) (st : VirtualState)
    (id target : String) (index : Option Int)
    (htop : forest.any (fun r => r.id == id) = true)
    (_heff : effectiveParent (mkCtx forest st false).nm (flatMaps forest).2
      st.virtualParent id = some "0") :
    moveBookmark forest st id target index =
      (forest, st, MoveOutcome.failure NativeError.invalidOperation) := by
  rw [moveBookmark, nativeMove_top target htop]

/-- Witness for C4: moving the canonical bookmarks-bar container `'1'`
anywhere fails and changes nothing. -/
theorem c4_witness :
    moveBookmark
      [BNode.mk "1" "Bar" none (some "0")
        [BNode.mk "a" "a" (some "ua") (some "1") [] none] none]
      { order := [], hidden := [], titles := [], virtualParent := [] }
      "1" "2" none =
      ([BNode.mk "1" "Bar" none (some "0")
        [BNode.mk "a" "a" (some "ua") (some "1") [] none] none],
       { order := [], hidden := [], titles := [], virtualParent := [] },
       MoveOutcome.failure NativeError.invalidOperation) :=
  c4_root_immovable _ _ _ _ _ (by decide) (by decide)

/-! ## C10: hidden top-level containers still render -/

/-- C10: `buildVirtualTree` maps the top-level containers through
`buildNode` unconditionally: the returned root list matches the passed
top-level nodes one for one (same ids, same order), even for a root whose
id is in the hidden set and even with `showHidden = false` — the hidden
filter is applied only when recursing into children.  A hidden root merely
carries `isHidden = true`. -/
theorem c10_hidden_root_still_rendered (nodes : List BNode)
    (st : VirtualState) (sh : Bool) (fuel : Nat) (out : List VNode)
    (h : buildVirtualTreeF nodes st sh fuel = some out) :
    List.Forall₂ (fun n v => v.id = n.id ∧
      v.isHidden = st.hidden.contains n.id) nodes out := by
  rw [buildVirtualTreeF] at h
  have h2 := buildRootsF_forall2 h
  refine h2.imp ?_
  intro n v hb
  exact ⟨buildNodeF_id hb, buildNodeF_isHidden hb⟩

/-- Witness for C10: a hidden top-level container is still rendered (with
`isHidden = true`) when `showHidden` is false. -/
theorem c10_witness :
    List.Forall₂ (fun n v => VNode.id v = BNode.id n ∧
      VNode.isHidden v = List.contains ["r"] (BNode.id n))
      [BNode.mk "r" "r" none (some "0") [] none]
      ((buildVirtualTreeF [BNode.mk "r" "r" none (some "0") [] none]
        { order := [], hidden := ["r"], titles := [], virtualParent := [] }
        false 2).getD []) :=
  c10_hidden_root_still_rendered
    [BNode.mk "r" "r" none (some "0") [] none]
    { order := [], hidden := ["r"], titles := [], virtualParent := [] }
    false 2
    ((buildVirtualTreeF [BNode.mk "r" "r" none (some "0") [] none]
      { order := [], hidden := ["r"], titles := [], virtualParent := [] }
      false 2).getD [])
    (by rfl)

/-! ## C7: termination of the reconciliation -/

/-- C7 fixture: the top-level container `'1'` contains the folder `'d'`,
and the overlay re-parents `'1'` under its own descendant `'d'`
(`virtualParent['1'] = 'd'`, a valid existing target, so the override is
applied).  The effective-children map then contains the two-cycle
`'1' → 'd' → '1'`, reachable from the root list. -/
def c7D : BNode := BNode.mk "d" "d" none (some "1") [] none

def c7Forest : List BNode :=
  [BNode.mk "1" "Bar" none (some "0") [c7D] none]

def c7State : VirtualState :=
  { order := [], hidden := [], titles := [], virtualParent := [("1", "d")] }

/-- C7 counterexample: on an overlay that re-parents a top-level container
under its own descendant, the reconciler's recursion never returns: for
every recursion budget the fuelled embedding runs out of fuel (the source
has no cycle guard, so the real `buildNode` overflows the stack instead of
returning a forest). -/
theorem c7_root_cycle_diverges :
    buildVirtualTreeF c7Forest c7State false 100 = none ∧
    (∀ fuel, buildVirtualTreeF c7Forest c7State false fuel = none) := by
  have key : ∀ fuel,
      buildNodeF (mkCtx c7Forest c7State false) fuel
        (BNode.mk "1" "Bar" none (some "0") [c7D] none) = none ∧
      buildNodeF (mkCtx c7Forest c7State false) fuel c7D = none := by
    intro fuel
    induction fuel with
    | zero => exact ⟨rfl, rfl⟩
    | succ f ih =>
      constructor
      · rw [buildNodeF_succ]
        have hsort : sortedChildIds (mkCtx c7Forest c7State false)
            (BNode.id (BNode.mk "1" "Bar" none (some "0") [c7D] none)) =
            ["d"] := rfl
        rw [hsort]
        have hkids : buildKidsF (mkCtx c7Forest c7State false) f ["d"] =
            none := by
          have hn : mapGet (mkCtx c7Forest c7State false).nm "d" =
              some c7D := rfl
          have hv : (!((mkCtx c7Forest c7State false).hidden.contains "d") ||
              (mkCtx c7Forest c7State false).showHidden) = true := rfl
          rw [buildKidsF_cons_vis hn hv, ih.2]
        rw [hkids]
        rfl
      · rw [buildNodeF_succ]
        have hsort : sortedChildIds (mkCtx c7Forest c7State false)
            (BNode.id c7D) = ["1"] := rfl
        rw [hsort]
        have hkids : buildKidsF (mkCtx c7Forest c7State false) f ["1"] =
            none := by
          have hn : mapGet (mkCtx c7Forest c7State false).nm "1" =
              some (BNode.mk "1" "Bar" none (some "0") [c7D] none) := rfl
          have hv : (!((mkCtx c7Forest c7State false).hidden.contains "1") ||
              (mkCtx c7Forest c7State false).showHidden) = true := rfl
          rw [buildKidsF_cons_vis hn hv, ih.1]
        rw [hkids]
        rfl
  have all : ∀ fuel, buildVirtualTreeF c7Forest c7State false fuel = none := by
    intro fuel
    rw [buildVirtualTreeF]
    exact buildRootsF_cons_none (key fuel).1
  exact ⟨all 100, all⟩

/-- C7 (amended): the reconciliation terminates and returns a forest for
every snapshot, overlay and visibility flag whose effective-children map
admits a decreasing rank (i.e. whose effective-child relation is
well-founded — in particular for every overlay that does not virtually
re-parent a node into its own effective subtree), given a recursion budget
exceeding the rank of every top-level container.  The counterexample shows
the unrestricted claim false: a `virtualParent` override placing a
top-level container under its own descendant makes the recursion diverge. -/
theorem c7_amended_terminates (nodes : List BNode) (st : VirtualState)
    (sh : Bool) (rank : String → Nat) (fuel : Nat)
    (hrank : ∀ e ∈ (mkCtx nodes st sh).cm, ∀ c ∈ e.2, rank c < rank e.1)
    (hfuel : ∀ r ∈ nodes, rank r.id < fuel) :
    ∃ out, buildVirtualTreeF nodes st sh fuel = some out := by
  have main : ∀ f n, rank n.id < f →
      (buildNodeF (mkCtx nodes st sh) f n).isSome := by
    intro f
    induction f with
    | zero => intro n hn; omega
    | succ f2 ih =>
      intro n hn
      rw [buildNodeF_succ]
      have hkids : (buildKidsF (mkCtx nodes st sh) f2
          (sortedChildIds (mkCtx nodes st sh) n.id)).isSome := by
        refine buildKidsF_isSome ?_
        intro cn hcn
        rcases mem_visibleKidNodes hcn with ⟨cid, hcid, hget, -⟩
        have hcid2 : cid ∈ (mapGet (mkCtx nodes st sh).cm n.id).getD [] :=
          mem_sortedChildIds.1 hcid
        cases hcm : mapGet (mkCtx nodes st sh).cm n.id with
        | none => rw [hcm] at hcid2; cases hcid2
        | some l =>
          rw [hcm] at hcid2
          have hentry := mapGet_eq_some_mem hcm
          have hlt := hrank _ hentry cid hcid2
          have hid := mkCtx_hkv nodes st sh cid cn hget
          refine ih cn ?_
          rw [hid]
          simp only at hlt
          omega
      cases hk : buildKidsF (mkCtx nodes st sh) f2
          (sortedChildIds (mkCtx nodes st sh) n.id) with
      | none => rw [hk] at hkids; cases hkids
      | some kids => rfl
  have hroots : (buildRootsF (mkCtx nodes st sh) fuel nodes).isSome :=
    buildRootsF_isSome (fun n hnmem => main fuel n (hfuel n hnmem))
  rw [buildVirtualTreeF]
  cases hr : buildRootsF (mkCtx nodes st sh) fuel nodes with
  | none => rw [hr] at hroots; cases hroots
  | some out => exact ⟨out, rfl⟩

/-- Witness for C7 (amended): a two-level snapshot with an empty overlay
terminates with rank depth-in-tree and fuel 2. -/
theorem c7_amended_witness :
    ∃ out, buildVirtualTreeF
      [BNode.mk "1" "Bar" none (some "0")
        [BNode.mk "d" "d" none (some "1") [] none] none]
      { order := [], hidden := [], titles := [], virtualParent := [] }
      false 2 = some out :=
  c7_amended_terminates _ _ _
    (fun s => if s = "0" then 2 else if s = "1" then 1 else 0) 2
    (by decide) (by decide)


/-! ## C5: what a successful Move guarantees about the saved overlay -/

/-- The position at which `moveBookmark` inserts into the cleaned order
list of length `len`: append for an omitted index; JS splice semantics
otherwise — a nonnegative index is clamped above to `len`, a negative
index counts from the end (`max(len + k, 0)`). -/
def insertPos : Option Int → Nat → Nat
  | none, len => len
  | some k, len => if k < 0 then ((len : Int) + k).toNat else min k.toNat len

theorem insertPos_le (index : Option Int) (len : Nat) :
    insertPos index len ≤ len := by
  cases index with
  | none => exact le_refl len
  | some k =>
    rw [insertPos]
    split
    · next hk => omega
    · exact min_le_right _ _

theorem spliceInsert_eq_insertPos (l : List String) (k : Int) (x : String) :
    spliceInsert l k x =
      l.take (insertPos (some k) l.length) ++
        x :: l.drop (insertPos (some k) l.length) := rfl

theorem clearedVirtualParent_some {st : VirtualState} {id t : String}
    (hg : mapGet st.virtualParent id = some t) :
    clearedVirtualParent st id =
      if jsTruthy t then objDelete st.virtualParent id
      else st.virtualParent := by
  rw [clearedVirtualParent, hg]

theorem clearedVirtualParent_none {st : VirtualState} {id : String}
    (hg : mapGet st.virtualParent id = none) :
    clearedVirtualParent st id = st.virtualParent := by
  rw [clearedVirtualParent, hg]

theorem moveBookmark_of_error {forest : List BNode} {st : VirtualState}
    {id target : String} {index : Option Int} {e : NativeError}
    (h : nativeMove forest id target = .error e) :
    moveBookmark forest st id target index = (forest, st, .failure e) := by
  rw [moveBookmark, h]

theorem moveBookmark_of_ok {forest : List BNode} {st : VirtualState}
    {id target : String} {index : Option Int} {forest2 : List BNode}
    (h : nativeMove forest id target = .ok forest2) :
    moveBookmark forest st id target index =
      (forest2, moveSavedState forest2 st id target index, .success) := by
  rw [moveBookmark, h]

/-- C5 (amended): whenever `Move(id, targetParentId, index?)` succeeds,
the saved overlay has no `virtualParent[id]` entry (unless its stored
value was the falsy empty string, which the truthiness-guarded delete
leaves in place), `id` is absent from every other parent's order list,
and `id` occurs exactly once in the target's order list — at the position
`insertPos`: append for an omitted index, a nonnegative index clamped
above to the cleaned list's length, and a negative index counting from
the cleaned list's end (JS splice semantics), not clamped to 0. -/
theorem c5_move_updates_overlay (forest : List BNode) (st : VirtualState)
    (id target : String) (index : Option Int) (f2 : List BNode)
    (st2 : VirtualState)
    (hrun : moveBookmark forest st id target index =
      (f2, st2, MoveOutcome.success))
    (hvp : mapGet st.virtualParent id ≠ some "") :
    mapGet st2.virtualParent id = none ∧
    (∀ p l, p ≠ target → mapGet st2.order p = some l → id ∉ l) ∧
    (∃ pre post, mapGet st2.order target = some (pre ++ id :: post) ∧
      id ∉ pre ∧ id ∉ post ∧
      pre.length = insertPos index (pre.length + post.length)) := by
  cases hnm : nativeMove forest id target with
  | error e =>
    rw [moveBookmark_of_error hnm] at hrun
    simp at hrun
  | ok forest2 =>
    rw [moveBookmark_of_ok hnm] at hrun
    have hst2 : st2 = moveSavedState forest2 st id target index :=
      (congrArg (fun x => x.2.1) hrun).symm
    subst hst2
    refine ⟨?_, ?_, ?_⟩
    · show mapGet (clearedVirtualParent st id) id = none
      cases hg : mapGet st.virtualParent id with
      | none => rw [clearedVirtualParent_none hg]; exact hg
      | some t =>
        have ht : jsTruthy t = true := by
          rw [jsTruthy, bne_iff_ne]
          intro hteq
          rw [hteq] at hg
          exact hvp hg
        rw [clearedVirtualParent_some hg, ht, if_pos rfl]
        exact mapGet_objDelete_self _ _
    · intro p l hp hl
      have hget : mapGet (moveSavedState forest2 st id target index).order p
          = mapGet (st.order.map (fun e =>
            (e.1, if e.1 == target then e.2
              else e.2.filter (fun x => x != id)))) p :=
        mapGet_mapSet_ne _ _ _ _ hp
      rw [hget, mapGet_map_entry] at hl
      cases hg : mapGet st.order p with
      | none => rw [hg] at hl; cases hl
      | some l0 =>
        rw [hg] at hl
        have hpt : (p == target) = false := by simp [hp]
        simp only [Option.map_some, hpt, Bool.false_eq_true, if_false] at hl
        cases hl
        intro hmem
        have := List.of_mem_filter hmem
        simp at this
    · have hget : mapGet (moveSavedState forest2 st id target index).order
          target = some (finalTargetOrder forest2 st id target index) :=
        mapGet_mapSet_self _ _ _
      have hidnot : id ∉ cleanedTargetOrder forest2 st id target := by
        intro hmem
        have := List.of_mem_filter hmem
        simp at this
      cases index with
      | none =>
        refine ⟨cleanedTargetOrder forest2 st id target, [], ?_, hidnot,
          by simp, by simp [insertPos]⟩
        rw [hget]
        rfl
      | some k =>
        have hpos : insertPos (some k)
            (cleanedTargetOrder forest2 st id target).length ≤
            (cleanedTargetOrder forest2 st id target).length :=
          insertPos_le _ _
        refine ⟨(cleanedTargetOrder forest2 st id target).take
            (insertPos (some k)
              (cleanedTargetOrder forest2 st id target).length),
          (cleanedTargetOrder forest2 st id target).drop
            (insertPos (some k)
              (cleanedTargetOrder forest2 st id target).length),
          ?_, ?_, ?_, ?_⟩
        · rw [hget]
          show some (finalTargetOrder forest2 st id target (some k)) = _
          rw [show finalTargetOrder forest2 st id target (some k) =
            spliceInsert (cleanedTargetOrder forest2 st id target) k id
            from rfl]
          rw [spliceInsert_eq_insertPos]
        · intro hmem
          exact hidnot ((List.take_sublist _ _).mem hmem)
        · intro hmem
          exact hidnot ((List.drop_sublist _ _).mem hmem)
        · rw [List.length_take, List.length_drop]
          have hmin : min (insertPos (some k)
              (cleanedTargetOrder forest2 st id target).length)
              (cleanedTargetOrder forest2 st id target).length =
              insertPos (some k)
                (cleanedTargetOrder forest2 st id target).length := by
            omega
          rw [hmin]
          congr 1
          omega

/-- C5 counterexample fixture: order `[a, b, c]` for parent `'1'` and a
stored (stale, falsy) `virtualParent['a'] = ""`. -/
def c5Forest : List BNode :=
  [BNode.mk "1" "Bar" none (some "0")
    [BNode.mk "a" "a" (some "ua") (some "1") [] none,
     BNode.mk "b" "b" (some "ub") (some "1") [] none,
     BNode.mk "c" "c" (some "uc") (some "1") [] none] none]

def c5State : VirtualState :=
  { order := [("1", ["a", "b", "c"])], hidden := [], titles := [],
    virtualParent := [("a", "")] }

/-- C5 counterexample: `Move("a", "1", -1)` succeeds, but (i) the claimed
clamping of the index to `[0, length]` fails — JS `splice(-1)` counts from
the end of the cleaned list `[b, c]`, landing `a` at position 1, not at
the claimed `max(-1, 0) = 0`; and (ii) `virtualParent["a"]` is not
cleared, because its stored value `""` is falsy and the delete is guarded
by a truthiness test. -/
theorem c5_counterexample :
    (moveBookmark c5Forest c5State "a" "1" (some (-1))).2.2 =
      MoveOutcome.success ∧
    mapGet (moveBookmark c5Forest c5State "a" "1"
      (some (-1))).2.1.virtualParent "a" = some "" ∧
    mapGet (moveBookmark c5Forest c5State "a" "1"
      (some (-1))).2.1.order "1" = some ["b", "a", "c"] ∧
    ["b", "a", "c"].indexOf "a" ≠ 0 :=
  ⟨rfl, rfl, rfl, by decide⟩

/-- Witness for C5 (amended): a concrete successful move with index `-1`
from a three-element order. -/
theorem c5_witness :
    mapGet (moveBookmark c5Forest
      { order := [("1", ["a", "b", "c"])], hidden := [], titles := [],
        virtualParent := [] } "a" "1" (some (-1))).2.1.virtualParent "a" =
      none ∧
    (∀ p l, p ≠ "1" →
      mapGet (moveBookmark c5Forest
        { order := [("1", ["a", "b", "c"])], hidden := [], titles := [],
          virtualParent := [] } "a" "1" (some (-1))).2.1.order p = some l →
      "a" ∉ l) ∧
    (∃ pre post,
      mapGet (moveBookmark c5Forest
        { order := [("1", ["a", "b", "c"])], hidden := [], titles := [],
          virtualParent := [] } "a" "1" (some (-1))).2.1.order "1" =
        some (pre ++ "a" :: post) ∧
      "a" ∉ pre ∧ "a" ∉ post ∧
      pre.length = insertPos (some (-1)) (pre.length + post.length)) :=
  c5_move_updates_overlay c5Forest
    { order := [("1", ["a", "b", "c"])], hidden := [], titles := [],
      virtualParent := [] } "a" "1" (some (-1)) _ _ rfl (by decide)


/-! ## C8: `children` present iff folder -/

mutual

/-- A rendered node is well-shaped when its `children` field is present
exactly if it is a folder (no url), recursively. -/
def vnChildrenIffFolder : VNode → Bool
  | .mk _ _ u cs _ _ _ _ =>
    match cs with
    | none => u.isSome
    | some l => u.isNone && vnListChildrenIffFolder l

def vnListChildrenIffFolder : List VNode → Bool
  | [] => true
  | v :: rest => vnChildrenIffFolder v && vnListChildrenIffFolder rest

end

theorem vnChildrenIffFolder_mk (i t : String) (u : Option String)
    (cs : Option (List VNode)) (p : Option String) (e hh : Bool)
    (d : Option Nat) :
    vnChildrenIffFolder (VNode.mk i t u cs p e hh d) =
      match cs with
      | none => u.isSome
      | some l => u.isNone && vnListChildrenIffFolder l := by
  rw [vnChildrenIffFolder.eq_def]

theorem mem_allNodesList_of_mem {ns : List BNode} {n : BNode}
    (h : n ∈ ns) : n ∈ allNodesList ns := by
  induction ns with
  | nil => cases h
  | cons m rest ih =>
    rw [allNodesList]
    rcases List.mem_cons.1 h with rfl | h2
    · refine List.mem_append_left _ ?_
      cases n with
      | mk i t u p c d => rw [allNodesOf]; exact List.mem_cons_self _ _
    · exact List.mem_append_right _ (ih h2)

theorem sortedChildIds_of_cm_none {ctx : BuildCtx} {i : String}
    (h : mapGet ctx.cm i = none) : sortedChildIds ctx i = [] := by
  rw [sortedChildIds, h]
  cases mapGet ctx.order i <;> rfl

/-- Every child list built by the children loop consists of well-shaped
nodes whenever every node built from the native map is well-shaped. -/
theorem kids_all_good {ctx : BuildCtx} {fuel : Nat}
    (hkv : ∀ k n, mapGet ctx.nm k = some n → n.id = k)
    (hq : ∀ n v, (∀ pn, mapGet ctx.nm n.id = some pn → pn.url = n.url) →
      (mapGet ctx.nm n.id).isSome = true →
      buildNodeF ctx fuel n = some v → vnChildrenIffFolder v = true) :
    ∀ {ids : List String} {vs : List VNode},
    buildKidsF ctx fuel ids = some vs →
    vnListChildrenIffFolder vs = true := by
  intro ids
  induction ids with
  | nil => intro vs h; rw [buildKidsF_nil] at h; cases h; rfl
  | cons cid rest ih =>
    intro vs h
    cases hn : mapGet ctx.nm cid with
    | none => rw [buildKidsF_cons_none hn] at h; exact ih h
    | some cn =>
      cases hv : (!(ctx.hidden.contains cid) || ctx.showHidden) with
      | false => rw [buildKidsF_cons_skip hn hv] at h; exact ih h
      | true =>
        rw [buildKidsF_cons_vis hn hv] at h
        cases hb : buildNodeF ctx fuel cn with
        | none => rw [hb] at h; cases h
        | some v =>
          rw [hb] at h
          rcases Option.map_eq_some'.1 h with ⟨vs2, hrest, rfl⟩
          have hid : cn.id = cid := hkv cid cn hn
          have hget2 : mapGet ctx.nm cn.id = some cn := by
            rw [hid]; exact hn
          have hgood := hq cn v
            (fun pn hpn => by
              rw [hget2] at hpn
              cases hpn
              rfl)
            (by rw [hget2]; rfl) hb
          rw [vnListChildrenIffFolder, hgood, ih hrest]
          rfl

/-- C8 (amended): in the rendered forest, every node's `children` field is
present iff the node is a folder, provided no node is effectively parented
under a bookmark — formally, every key of the effective-children map that
resolves in the native index resolves to a folder — and the snapshot's
ids are unique.  The counterexample shows the unrestricted claim false: a
`virtualParent` entry that targets a bookmark id gives that rendered
bookmark a `children` array. -/
theorem c8_children_iff_folder (nodes : List BNode) (st : VirtualState)
    (sh : Bool) (fuel : Nat) (out : List VNode)
    (hids : (allIds nodes).Nodup)
    (hnb : ∀ e ∈ (mkCtx nodes st sh).cm, ∀ pn,
      mapGet (mkCtx nodes st sh).nm e.1 = some pn → pn.url = none)
    (h : buildVirtualTreeF nodes st sh fuel = some out) :
    vnListChildrenIffFolder out = true := by
  have main : ∀ f n v,
      (∀ pn, mapGet (mkCtx nodes st sh).nm n.id = some pn →
        pn.url = n.url) →
      (mapGet (mkCtx nodes st sh).nm n.id).isSome = true →
      buildNodeF (mkCtx nodes st sh) f n = some v →
      vnChildrenIffFolder v = true := by
    intro f
    induction f with
    | zero =>
      intro n v _ _ hb
      rw [buildNodeF_zero] at hb
      cases hb
    | succ f2 ih =>
      intro n v hurl hsome hb
      obtain ⟨f2x, kids, hfx, hkids, rfl⟩ := buildNodeF_shape hb
      obtain rfl : f2x = f2 := by omega
      cases hu : n.url with
      | none =>
        have hres := kids_all_good (mkCtx_hkv nodes st sh) ih hkids
        show vnChildrenIffFolder (mkRendered (mkCtx nodes st sh) n kids) =
          true
        rw [mkRendered, vnChildrenIffFolder_mk]
        simp [hu, hres]
      | some u =>
        have hcmnone : mapGet (mkCtx nodes st sh).cm n.id = none := by
          cases hcm : mapGet (mkCtx nodes st sh).cm n.id with
          | none => rfl
          | some l =>
            exfalso
            obtain ⟨pn, hpn⟩ := Option.isSome_iff_exists.1 hsome
            have h1 := hnb (n.id, l) (mapGet_eq_some_mem hcm) pn hpn
            have h2 := hurl pn hpn
            rw [hu] at h2
            rw [h1] at h2
            cases h2
        rw [sortedChildIds_of_cm_none hcmnone, buildKidsF_nil] at hkids
        cases hkids
        show vnChildrenIffFolder (mkRendered (mkCtx nodes st sh) n []) =
          true
        rw [mkRendered, vnChildrenIffFolder_mk]
        simp [hu]
  have roots_good : ∀ (ns : List BNode) (vs : List VNode),
      (∀ n ∈ ns, n ∈ nodes) →
      buildRootsF (mkCtx nodes st sh) fuel ns = some vs →
      vnListChildrenIffFolder vs = true := by
    intro ns
    induction ns with
    | nil =>
      intro vs _ hr
      rw [buildRootsF] at hr
      cases hr
      rfl
    | cons n rest ih =>
      intro vs hsub hr
      cases hb : buildNodeF (mkCtx nodes st sh) fuel n with
      | none => rw [buildRootsF_cons_none hb] at hr; cases hr
      | some v =>
        rw [buildRootsF_cons_some hb] at hr
        rcases Option.map_eq_some'.1 hr with ⟨vs2, hrest, rfl⟩
        have hmemall : n ∈ allNodesList nodes :=
          mem_allNodesList_of_mem (hsub n (List.mem_cons_self _ _))
        have hhas := @mkCtx_nm_cover nodes st sh n hmemall
        have hsome : (mapGet (mkCtx nodes st sh).nm n.id).isSome = true := by
          rcases (mapHas_true_iff _ _).1 hhas with ⟨w, hw⟩
          rw [hw]
          rfl
        have hurl : ∀ pn, mapGet (mkCtx nodes st sh).nm n.id = some pn →
            pn.url = n.url := by
          intro pn hpn
          obtain ⟨hpnmem, hpnid⟩ := mkCtx_nm_val hpn
          have hpe : pn = n := by
            have hinj := List.inj_on_of_nodup_map hids
            exact hinj hpnmem hmemall (by rw [hpnid])
          rw [hpe]
        have hgood := main fuel n v hurl hsome hb
        rw [vnListChildrenIffFolder, hgood,
          ih vs2 (fun m hm => hsub m (List.mem_cons_of_mem _ hm)) hrest]
        rfl
  rw [buildVirtualTreeF] at h
  exact roots_good nodes out (fun n hn => hn) h

/-- C8 counterexample fixture: the overlay re-parents `x` under the
bookmark `b` (`virtualParent['x'] = 'b'`, a valid existing target). -/
def c8Forest : List BNode :=
  [BNode.mk "1" "Bar" none (some "0")
    [BNode.mk "b" "b" (some "ub") (some "1") [] none,
     BNode.mk "x" "x" (some "ux") (some "1") [] none] none]

def c8State : VirtualState :=
  { order := [], hidden := [], titles := [], virtualParent := [("x", "b")] }

/-- The first child of the first rendered root of the C8 fixture: the
rendered bookmark `b`. -/
def c8RenderedB : Option VNode :=
  ((buildVirtualTreeF c8Forest c8State false 4).getD []).head?.bind
    (fun r => (r.children.getD []).head?)

/-- C8 counterexample: with `virtualParent['x'] = 'b'` pointing at a
bookmark, the reconciler renders the bookmark `b` (url present) WITH a
`children` array `[x]` — the `children.length > 0` disjunct of the source
makes a bookmark with effective children carry a children sequence, so
"children present iff folder" fails for this overlay. -/
theorem c8_counterexample :
    c8RenderedB.map (fun v => v.url.isSome && v.children.isSome) =
      some true ∧
    c8RenderedB.map VNode.childIds = some ["x"] ∧
    (buildVirtualTreeF c8Forest c8State false 4).isSome = true :=
  ⟨rfl, rfl, rfl⟩

/-- Witness for C8 (amended): a snapshot with a folder and two bookmarks
and an overlay whose virtualParent targets the folder renders
well-shaped. -/
theorem c8_witness :
    vnListChildrenIffFolder
      ((buildVirtualTreeF
        [BNode.mk "1" "Bar" none (some "0")
          [BNode.mk "f" "f" none (some "1") [] none,
           BNode.mk "x" "x" (some "ux") (some "1") [] none] none]
        { order := [], hidden := [], titles := [],
          virtualParent := [("x", "f")] } false 4).getD []) = true :=
  c8_children_iff_folder
    [BNode.mk "1" "Bar" none (some "0")
      [BNode.mk "f" "f" none (some "1") [] none,
       BNode.mk "x" "x" (some "ux") (some "1") [] none] none]
    { order := [], hidden := [], titles := [],
      virtualParent := [("x", "f")] } false 4
    ((buildVirtualTreeF
      [BNode.mk "1" "Bar" none (some "0")
        [BNode.mk "f" "f" none (some "1") [] none,
         BNode.mk "x" "x" (some "ux") (some "1") [] none] none]
      { order := [], hidden := [], titles := [],
        virtualParent := [("x", "f")] } false 4).getD [])
    (by decide) (by decide) (by rfl)


/-! ## C6: stale references are harmless -/

mutual

/-- `z` is the id of this rendered node or of one of its descendants. -/
def vnOccurs : VNode → String → Bool
  | .mk i _ _ cs _ _ _ _, z =>
    i == z || (match cs with
      | none => false
      | some l => vnListOccurs l z)

def vnListOccurs : List VNode → String → Bool
  | [], _ => false
  | v :: rest, z => vnOccurs v z || vnListOccurs rest z

end

theorem vnOccurs_mk (i t : String) (u : Option String)
    (cs : Option (List VNode)) (p : Option String) (e hh : Bool)
    (d : Option Nat) (z : String) :
    vnOccurs (VNode.mk i t u cs p e hh d) z =
      (i == z || (match cs with
        | none => false
        | some l => vnListOccurs l z)) := by
  rw [vnOccurs.eq_def]

theorem kids_occurs {ctx : BuildCtx} {fuel : Nat}
    (hkv : ∀ k n, mapGet ctx.nm k = some n → n.id = k)
    (hq : ∀ n v z, buildNodeF ctx fuel n = some v → vnOccurs v z = true →
      z = n.id ∨ mapHas ctx.nm z = true) :
    ∀ {ids : List String} {vs : List VNode} {z : String},
    buildKidsF ctx fuel ids = some vs →
    vnListOccurs vs z = true → mapHas ctx.nm z = true := by
  intro ids
  induction ids with
  | nil =>
    intro vs z h hocc
    rw [buildKidsF_nil] at h
    cases h
    cases hocc
  | cons cid rest ih =>
    intro vs z h hocc
    cases hn : mapGet ctx.nm cid with
    | none =>
      rw [buildKidsF_cons_none hn] at h
      exact ih h hocc
    | some cn =>
      cases hv : (!(ctx.hidden.contains cid) || ctx.showHidden) with
      | false =>
        rw [buildKidsF_cons_skip hn hv] at h
        exact ih h hocc
      | true =>
        rw [buildKidsF_cons_vis hn hv] at h
        cases hb : buildNodeF ctx fuel cn with
        | none => rw [hb] at h; cases h
        | some v =>
          rw [hb] at h
          rcases Option.map_eq_some'.1 h with ⟨vs2, hrest, rfl⟩
          rw [vnListOccurs] at hocc
          rcases Bool.or_eq_true_iff.1 hocc with h1 | h1
          · rcases hq cn v z hb h1 with rfl | h2
            · rw [hkv cid cn hn]
              have : (cid, cn) ∈ ctx.nm := by
                have := mapGet_eq_some_mem hn
                exact this
              exact mapHas_of_mem this
            · exact h2
          · exact ih hrest h1

theorem buildNodeF_occurs {ctx : BuildCtx}
    (hkv : ∀ k n, mapGet ctx.nm k = some n → n.id = k) :
    ∀ (fuel : Nat) (n : BNode) (v : VNode) (z : String),
    buildNodeF ctx fuel n = some v → vnOccurs v z = true →
    z = n.id ∨ mapHas ctx.nm z = true := by
  intro fuel
  induction fuel with
  | zero =>
    intro n v z hb
    rw [buildNodeF_zero] at hb
    cases hb
  | succ f2 ih =>
    intro n v z hb hocc
    obtain ⟨f2x, kids, hfx, hkids, rfl⟩ := buildNodeF_shape hb
    obtain rfl : f2x = f2 := by omega
    rw [mkRendered, vnOccurs_mk] at hocc
    rcases Bool.or_eq_true_iff.1 hocc with h1 | h1
    · left
      exact (by simpa using h1 : n.id = z).symm
    · by_cases hcond : (kids.length > 0 || n.url.isNone) = true
      · rw [if_pos hcond] at h1
        have h2 : vnListOccurs kids z = true := h1
        exact Or.inr (kids_occurs hkv (fun a b c => ih a b c) hkids h2)
      · rw [if_neg hcond] at h1
        cases h1

theorem effectiveParent_stale {nm : JsMap BNode} {pm vp : JsMap String}
    {id t : String} (hg : mapGet vp id = some t) (hh : mapHas nm t = false)
    (h0 : t ≠ "0") : effectiveParent nm pm vp id = mapGet pm id := by
  rw [effectiveParent, hg]
  have h02 : (t == "0") = false := by simp [h0]
  simp [hh, h02]

theorem effectiveParent_objDelete_stale {nm : JsMap BNode}
    {pm vp : JsMap String} {x t : String} (hg : mapGet vp x = some t)
    (hh : mapHas nm t = false) (h0 : t ≠ "0") (i : String) :
    effectiveParent nm pm vp i = effectiveParent nm pm (objDelete vp x) i := by
  by_cases hix : i = x
  · subst hix
    rw [effectiveParent_stale hg hh h0, effectiveParent,
      mapGet_objDelete_self]
  · rw [effectiveParent, effectiveParent, mapGet_objDelete_ne _ _ _ hix]

theorem mkCtx_objDelete_stale {nodes : List BNode} {st : VirtualState}
    {sh : Bool} {x t : String} (hg : mapGet st.virtualParent x = some t)
    (hh : mapHas (mkCtx nodes st sh).nm t = false) (h0 : t ≠ "0") :
    mkCtx nodes st sh =
      mkCtx nodes { st with virtualParent := objDelete st.virtualParent x }
        sh := by
  have hcm : buildChildrenMap (flatMaps nodes).1 (flatMaps nodes).2
      st.virtualParent =
      buildChildrenMap (flatMaps nodes).1 (flatMaps nodes).2
        (objDelete st.virtualParent x) := by
    have hh2 : mapHas (flatMaps nodes).1 t = false := hh
    rw [buildChildrenMap_eq_foldl, buildChildrenMap_eq_foldl]
    apply List.foldl_ext
    intro cm e _
    rw [cmStep, cmStep,
      effectiveParent_objDelete_stale hg hh2 h0 e.2.id]
  simp only [mkCtx]
  rw [hcm]

/-- C6: stale overlay references are harmless.  (i) Every id occurring
anywhere in the rendered forest is an id of the authoritative snapshot, so
an `order` or `virtualParent` entry naming a nonexistent id never appears
in the output.  (ii) A `virtualParent` entry whose target does not exist
in the snapshot (and is not the synthetic root `'0'`) is ignored: the
node's effective parent is its authoritative parent.  (iii) Deleting such
a stale `virtualParent` entry does not change the rendered forest at any
recursion budget — in particular the stale entry can never make the
reconciliation fail. -/
theorem c6_stale_reference_tolerance :
    (∀ (nodes : List BNode) (st : VirtualState) (sh : Bool) (fuel : Nat)
      (out : List VNode) (z : String),
      buildVirtualTreeF nodes st sh fuel = some out →
      vnListOccurs out z = true → z ∈ allIds nodes) ∧
    (∀ (nm : JsMap BNode) (pm vp : JsMap String) (id t : String),
      mapGet vp id = some t → mapHas nm t = false → t ≠ "0" →
      effectiveParent nm pm vp id = mapGet pm id) ∧
    (∀ (nodes : List BNode) (st : VirtualState) (sh : Bool) (fuel : Nat)
      (x t : String),
      mapGet st.virtualParent x = some t →
      mapHas (mkCtx nodes st sh).nm t = false → t ≠ "0" →
      buildVirtualTreeF nodes st sh fuel =
        buildVirtualTreeF nodes
          { st with virtualParent := objDelete st.virtualParent x } sh
          fuel) := by
  refine ⟨?_, ?_, ?_⟩
  · intro nodes st sh fuel out z h hocc
    rw [buildVirtualTreeF] at h
    have main := buildNodeF_occurs (mkCtx_hkv nodes st sh)
    have roots : ∀ (ns : List BNode) (vs : List VNode),
        (∀ n ∈ ns, n ∈ nodes) →
        buildRootsF (mkCtx nodes st sh) fuel ns = some vs →
        vnListOccurs vs z = true → z ∈ allIds nodes := by
      intro ns
      induction ns with
      | nil =>
        intro vs _ hr hoc
        rw [buildRootsF] at hr
        cases hr
        cases hoc
      | cons n rest ih =>
        intro vs hsub hr hoc
        cases hb : buildNodeF (mkCtx nodes st sh) fuel n with
        | none => rw [buildRootsF_cons_none hb] at hr; cases hr
        | some v =>
          rw [buildRootsF_cons_some hb] at hr
          rcases Option.map_eq_some'.1 hr with ⟨vs2, hrest, rfl⟩
          rw [vnListOccurs] at hoc
          rcases Bool.or_eq_true_iff.1 hoc with h1 | h1
          · rcases main fuel n v z hb h1 with rfl | h2
            · exact List.mem_map.2 ⟨n,
                mem_allNodesList_of_mem (hsub n (List.mem_cons_self _ _)),
                rfl⟩
            · rcases (mapHas_true_iff _ _).1 h2 with ⟨w, hw⟩
              obtain ⟨hwmem, hwid⟩ := mkCtx_nm_val hw
              exact List.mem_map.2 ⟨w, hwmem, hwid⟩
          · exact ih vs2 (fun m hm => hsub m (List.mem_cons_of_mem _ hm))
              hrest h1
    exact roots nodes out (fun n hn => hn) h hocc
  · intro nm pm vp id t hg hh h0
    exact effectiveParent_stale hg hh h0
  · intro nodes st sh fuel x t hg hh h0
    rw [buildVirtualTreeF, buildVirtualTreeF,
      mkCtx_objDelete_stale hg hh h0]

/-- Witness for C6: a ghost order id and a stale virtualParent target on a
concrete snapshot — the ghost id does not occur in the output, the stale
override is ignored, and deleting it leaves the output unchanged. -/
theorem c6_witness :
    ("ghost" ∈ allIds c8Forest → False) ∧
    vnListOccurs ((buildVirtualTreeF c8Forest
      { order := [("1", ["ghost", "b", "x"])], hidden := [], titles := [],
        virtualParent := [("x", "gone")] } false 4).getD []) "ghost" =
      false ∧
    effectiveParent (mkCtx c8Forest
      { order := [("1", ["ghost", "b", "x"])], hidden := [], titles := [],
        virtualParent := [("x", "gone")] } false).nm (flatMaps c8Forest).2
      [("x", "gone")] "x" = mapGet (flatMaps c8Forest).2 "x" ∧
    buildVirtualTreeF c8Forest
      { order := [("1", ["ghost", "b", "x"])], hidden := [], titles := [],
        virtualParent := [("x", "gone")] } false 4 =
      buildVirtualTreeF c8Forest
        { order := [("1", ["ghost", "b", "x"])], hidden := [], titles := [],
          virtualParent :=
            objDelete [("x", "gone")] "x" } false 4 := by
  refine ⟨by decide, ?_, ?_, ?_⟩
  · cases hocc : vnListOccurs ((buildVirtualTreeF c8Forest
        { order := [("1", ["ghost", "b", "x"])], hidden := [], titles := [],
          virtualParent := [("x", "gone")] } false 4).getD []) "ghost" with
    | false => rfl
    | true =>
      exfalso
      have := c6_stale_reference_tolerance.1 c8Forest
        { order := [("1", ["ghost", "b", "x"])], hidden := [], titles := [],
          virtualParent := [("x", "gone")] } false 4
        ((buildVirtualTreeF c8Forest
          { order := [("1", ["ghost", "b", "x"])], hidden := [],
            titles := [], virtualParent := [("x", "gone")] } false
          4).getD []) "ghost" (by rfl) hocc
      revert this
      decide
  · exact c6_stale_reference_tolerance.2.1 _ _ _ "x" "gone" rfl
      (by decide) (by decide)
  · exact c6_stale_reference_tolerance.2.2 c8Forest
      { order := [("1", ["ghost", "b", "x"])], hidden := [], titles := [],
        virtualParent := [("x", "gone")] } false 4 "x" "gone" rfl
      (by decide) (by decide)

/-! ## Claim C2: the custom order overlay and the rendered child sequence -/

theorem orderKey_of_not_mem {so : List String} {a : String} (h : a ∉ so) :
    orderKey so a = 999999 := by
  rw [orderKey]
  have hfil : so.enum.filter (fun e => e.2 == a) = [] := by
    rw [List.filter_eq_nil_iff]
    intro e he
    simp only [beq_iff_eq]
    intro heq
    apply h
    have hgm := List.mem_enum_iff_getElem?.1 he
    obtain ⟨hi, hv⟩ := List.getElem?_eq_some.1 hgm
    rw [← heq, ← hv]
    exact List.getElem_mem hi
  rw [hfil]
  rfl

theorem orderKey_get {so : List String} {a : String} (h : a ∈ so) :
    so[orderKey so a]? = some a := by
  obtain ⟨i, hi, hget⟩ := List.mem_iff_getElem.1 h
  have hmem : ((i, a) : Nat × String) ∈ so.enum := by
    rw [List.mem_enum_iff_getElem?, List.getElem?_eq_some]
    exact ⟨hi, hget⟩
  have hmemf : ((i, a) : Nat × String) ∈
      so.enum.filter (fun e => e.2 == a) :=
    List.mem_filter.2 ⟨hmem, by simp⟩
  rw [orderKey]
  cases hlast : (so.enum.filter (fun e => e.2 == a)).getLast? with
  | none =>
    rw [List.getLast?_eq_none_iff] at hlast
    rw [hlast] at hmemf
    cases hmemf
  | some e =>
    have h1 := List.mem_of_getLast?_eq_some hlast
    have h2 := List.mem_of_mem_filter h1
    have h3 := List.mem_filter.1 h1
    have h4 : e.2 = a := by simpa using h3.2
    have h5 := List.mem_enum_iff_getElem?.1 h2
    rw [h4] at h5
    exact h5

theorem orderKey_lt_of_mem {so : List String} {a : String} (h : a ∈ so) :
    orderKey so a < so.length :=
  (List.getElem?_eq_some.1 (orderKey_get h)).1

theorem orderKey_inj {so : List String} {a b : String} (ha : a ∈ so)
    (hb : b ∈ so) (h : orderKey so a = orderKey so b) : a = b := by
  have h1 := orderKey_get ha
  have h2 := orderKey_get hb
  rw [h, h2] at h1
  exact (Option.some.inj h1).symm

theorem orderKey_getElem {so : List String} (hnd : so.Nodup) (i : Nat)
    (hi : i < so.length) : orderKey so so[i] = i := by
  have h1 := orderKey_get (List.getElem_mem hi)
  obtain ⟨hk, hv⟩ := List.getElem?_eq_some.1 h1
  exact hnd.getElem_inj_iff.1 hv

theorem orderKey_eq_indexOf {so : List String} (hnd : so.Nodup) {a : String}
    (h : a ∈ so) : orderKey so a = so.indexOf a := by
  have hlt : so.indexOf a < so.length := List.indexOf_lt_length.2 h
  have hget : so[so.indexOf a] = a := List.getElem_indexOf hlt
  have h2 := orderKey_getElem hnd (so.indexOf a) hlt
  rw [hget] at h2
  exact h2

theorem orderKey_pairwise {so : List String} (hnd : so.Nodup) :
    so.Pairwise (fun a b => orderKey so a ≤ orderKey so b) := by
  rw [List.pairwise_iff_getElem]
  intro i j hi hj hij
  rw [orderKey_getElem hnd i hi, orderKey_getElem hnd j hj]
  omega

theorem sortedChildIds_of_order {ctx : BuildCtx} {i : String}
    {so : List String} (h : mapGet ctx.order i = some so) :
    sortedChildIds ctx i =
      stableSortByKey (orderKey so) ((mapGet ctx.cm i).getD []) := by
  rw [sortedChildIds, h]

theorem mkRendered_childIds {ctx : BuildCtx} (n : BNode)
    (kids : List VNode) :
    (mkRendered ctx n kids).childIds = kids.map VNode.id := by
  rw [mkRendered, VNode.childIds, VNode.children]
  cases hc : (decide (kids.length > 0) || n.url.isNone) with
  | true => rw [if_pos rfl]; rfl
  | false =>
    rw [if_neg Bool.false_ne_true]
    have h1 : kids = [] := by
      rcases Bool.or_eq_false_iff.1 hc with ⟨h1, -⟩
      cases kids with
      | nil => rfl
      | cons k ks => simp at h1
    rw [h1]
    rfl

/-- The rendered child-id sequence of a successfully built node: the
sorted effective child list filtered to ids with a native node that pass
the visibility check. -/
theorem vnChildIds_of_build {ctx : BuildCtx}
    (hkv : ∀ k n, mapGet ctx.nm k = some n → n.id = k) {fuel : Nat}
    {n : BNode} {v : VNode} (h : buildNodeF ctx fuel n = some v) :
    v.childIds = (sortedChildIds ctx n.id).filter
      (fun cid => (mapGet ctx.nm cid).isSome &&
        (!(ctx.hidden.contains cid) || ctx.showHidden)) := by
  obtain ⟨f2, kids, -, hkids, rfl⟩ := buildNodeF_shape h
  rw [mkRendered_childIds, buildKidsF_map_id hkv hkids]

/-- C2 (amended): when `state.order[P]` exists, the rendered children of a
built node for `P` respect the stored order among the children actually
rendered: (i) a rendered child in the stored order precedes every rendered
child outside it (stored order shorter than the sentinel 999999); (ii)
when the stored order is duplicate-free, rendered children in it keep its
relative order; (iii) rendered children outside it keep their
children-map relative order; (iv) when the stored order is duplicate-free,
is a permutation of the effective child list, and every member passes the
visibility check, the rendered child-id sequence equals the stored list
exactly.  The spec's unconditional equality with the stored list is false:
the counterexample hides a child, which is dropped from the rendered
sequence. -/
theorem c2_order_overlay (nodes : List BNode) (st : VirtualState) (sh : Bool)
    (fuel : Nat) (pn : BNode) (v : VNode) (so : List String)
    (hb : buildNodeF (mkCtx nodes st sh) fuel pn = some v)
    (hso : mapGet st.order pn.id = some so) :
    (so.length ≤ 999999 → ∀ a b, a ∈ v.childIds → b ∈ v.childIds →
      a ∈ so → b ∉ so → Before v.childIds a b) ∧
    (so.Nodup → ∀ a b, a ∈ v.childIds → b ∈ v.childIds → a ∈ so → b ∈ so →
      so.indexOf a < so.indexOf b → Before v.childIds a b) ∧
    (∀ a b, a ∈ v.childIds → b ∈ v.childIds → a ∉ so → b ∉ so →
      Before ((mapGet (mkCtx nodes st sh).cm pn.id).getD []) a b →
      Before v.childIds a b) ∧
    (so.Nodup → so.Perm ((mapGet (mkCtx nodes st sh).cm pn.id).getD []) →
      (∀ c ∈ so, (!(st.hidden.contains c) || sh) = true) →
      v.childIds = so) := by
  have hkv := mkCtx_hkv nodes st sh
  have hso2 : mapGet (mkCtx nodes st sh).order pn.id = some so := hso
  have hch : v.childIds = (stableSortByKey (orderKey so)
      ((mapGet (mkCtx nodes st sh).cm pn.id).getD [])).filter
      (fun cid => (mapGet (mkCtx nodes st sh).nm cid).isSome &&
        (!((mkCtx nodes st sh).hidden.contains cid) ||
          (mkCtx nodes st sh).showHidden)) := by
    rw [vnChildIds_of_build hkv hb, sortedChildIds_of_order hso2]
  have hpair : (v.childIds).Pairwise
      (fun a b => orderKey so a ≤ orderKey so b) := by
    rw [hch]
    exact List.Pairwise.sublist (List.filter_sublist _)
      (stableSortByKey_pairwise (orderKey so) _)
  refine ⟨?_, ?_, ?_, ?_⟩
  · intro hlen a b ha hbv haso hbnot
    have hka : orderKey so a < so.length := orderKey_lt_of_mem haso
    have hkb : orderKey so b = 999999 := orderKey_of_not_mem hbnot
    exact before_of_pairwise hpair ha hbv (by omega)
  · intro hnd a b ha hbv haso hbso hidx
    have hka := orderKey_eq_indexOf hnd haso
    have hkb := orderKey_eq_indexOf hnd hbso
    exact before_of_pairwise hpair ha hbv (by omega)
  · intro a b ha hbv hanot hbnot hbefore
    have hka := orderKey_of_not_mem hanot
    have hkb := orderKey_of_not_mem hbnot
    have h1 : Before (((mapGet (mkCtx nodes st sh).cm pn.id).getD []).filter
        (fun x => orderKey so x == 999999)) a b :=
      before_filter hbefore (by rw [hka]; rfl) (by rw [hkb]; rfl)
    rw [← stableSortByKey_filter_key (orderKey so) _ 999999] at h1
    have h2 : Before (stableSortByKey (orderKey so)
        ((mapGet (mkCtx nodes st sh).cm pn.id).getD [])) a b :=
      before_of_filter h1
    rw [hch] at ha hbv ⊢
    exact before_filter h2 (List.mem_filter.1 ha).2 (List.mem_filter.1 hbv).2
  · intro hnd hperm hvis
    cases hcm : mapGet (mkCtx nodes st sh).cm pn.id with
    | none =>
      rw [hcm] at hperm
      have hnil : so = [] := hperm.eq_nil
      rw [hch, hcm, hnil]
      rfl
    | some l =>
      rw [hcm] at hperm hch
      have hgd : ((some l).getD ([] : List String)) = l := rfl
      rw [hgd] at hperm hch
      have hallvis : ∀ x ∈ stableSortByKey (orderKey so) l,
          ((mapGet (mkCtx nodes st sh).nm x).isSome &&
            (!((mkCtx nodes st sh).hidden.contains x) ||
              (mkCtx nodes st sh).showHidden)) = true := by
        intro x hx
        have hxl : x ∈ l := (stableSortByKey_perm (orderKey so) l).mem_iff.1 hx
        have hxso : x ∈ so := hperm.mem_iff.2 hxl
        have hhas := (mkCtx_cm_mem hcm x hxl).1
        rcases (mapHas_true_iff _ _).1 hhas with ⟨w, hw⟩
        rw [Bool.and_eq_true]
        constructor
        · rw [hw]
          rfl
        · exact hvis x hxso
      rw [List.filter_eq_self.2 hallvis] at hch
      have hsorted_pair := stableSortByKey_pairwise (orderKey so) l
      have hso_pair := orderKey_pairwise hnd
      have hperm2 : so.Perm (stableSortByKey (orderKey so) l) :=
        hperm.trans (stableSortByKey_perm (orderKey so) l).symm
      have hinj : ∀ a ∈ so, ∀ b ∈ so,
          orderKey so a = orderKey so b → a = b :=
        fun a ha b hbm h => orderKey_inj ha hbm h
      rw [hch]
      exact (eq_of_perm_of_pairwiseKey hperm2 hso_pair hsorted_pair
        hinj).symm

/-- C2 counterexample fixture: folder 1 with the single bookmark child x,
a stored order listing exactly that child, and x hidden. -/
def c2Forest : List BNode :=
  [BNode.mk "1" "Bar" none (some "0")
    [BNode.mk "x" "x" (some "ux") (some "1") [] none] none]

def c2State : VirtualState :=
  { order := [("1", ["x"])], hidden := ["x"], titles := [],
    virtualParent := [] }

/-- C2 counterexample: the stored order of folder 1 lists exactly its
current children, yet with x hidden and showHidden off the rendered
children of 1 are empty, not the stored list — the rendered sequence does
not equal `state.order['1']`. -/
theorem c2_counterexample :
    mapGet c2State.order "1" = some ["x"] ∧
    ((buildVirtualTreeF c2Forest c2State false 3).getD []).map
      VNode.childIds = [[]] ∧
    ([] : List String) ≠ ["x"] :=
  ⟨rfl, rfl, by decide⟩

/-- C2 witness fixture: the bookmarks-bar scenario of spec section 8 —
folder bar with children A (a folder holding bookmarks X and Y) and
bookmark B, and stored order `[B, A]`. -/
def c2wBar : BNode :=
  BNode.mk "bar" "bar" none (some "0")
    [BNode.mk "A" "A" none (some "bar")
      [BNode.mk "X" "X" (some "uX") (some "A") [] none,
       BNode.mk "Y" "Y" (some "uY") (some "A") [] none] none,
     BNode.mk "B" "B" (some "uB") (some "bar") [] none] none

def c2wState : VirtualState :=
  { order := [("bar", ["B", "A"])], hidden := [], titles := [],
    virtualParent := [] }

def defaultVNode : VNode := VNode.mk "" "" none none none false false none

/-- C2 witness: on the section-8 fixture the exact-equality conjunct
applies — the rendered children of bar are `[B, A]`, the stored order. -/
theorem c2_witness :
    VNode.childIds ((buildNodeF (mkCtx [c2wBar] c2wState false) 4
      c2wBar).getD defaultVNode) = ["B", "A"] :=
  (c2_order_overlay [c2wBar] c2wState false 4 c2wBar
      ((buildNodeF (mkCtx [c2wBar] c2wState false) 4 c2wBar).getD
        defaultVNode)
      ["B", "A"] (by rfl) rfl).2.2.2 (by decide) (by decide) (by decide)

/-! ## Claim C3: the hidden set and the rendered output -/

mutual

/-- No children list of this rendered node or of any descendant
contains the id `z`. -/
def vnChildFree (z : String) : VNode → Bool
  | .mk _ _ _ cs _ _ _ _ =>
    match cs with
    | none => true
    | some l => !((l.map VNode.id).contains z) && vnListChildFree z l

def vnListChildFree : String → List VNode → Bool
  | _, [] => true
  | z, v :: rest => vnChildFree z v && vnListChildFree z rest

end

theorem vnChildFree_mk (z i t : String) (u : Option String)
    (cs : Option (List VNode)) (p : Option String) (e hh : Bool)
    (d : Option Nat) :
    vnChildFree z (VNode.mk i t u cs p e hh d) =
      match cs with
      | none => true
      | some l => !((l.map VNode.id).contains z) && vnListChildFree z l := by
  rw [vnChildFree.eq_def]

theorem kids_child_free {ctx : BuildCtx} {fuel : Nat} {z : String}
    (hq : ∀ n v, buildNodeF ctx fuel n = some v → vnChildFree z v = true) :
    ∀ {ids : List String} {vs : List VNode},
    buildKidsF ctx fuel ids = some vs → vnListChildFree z vs = true := by
  intro ids
  induction ids with
  | nil =>
    intro vs hk
    rw [buildKidsF_nil] at hk
    cases hk
    rfl
  | cons cid rest ih =>
    intro vs hk
    cases hn : mapGet ctx.nm cid with
    | none =>
      rw [buildKidsF_cons_none hn] at hk
      exact ih hk
    | some cn =>
      cases hv : (!(ctx.hidden.contains cid) || ctx.showHidden) with
      | false =>
        rw [buildKidsF_cons_skip hn hv] at hk
        exact ih hk
      | true =>
        rw [buildKidsF_cons_vis hn hv] at hk
        cases hb : buildNodeF ctx fuel cn with
        | none => rw [hb] at hk; cases hk
        | some v =>
          rw [hb] at hk
          rcases Option.map_eq_some'.1 hk with ⟨vs2, hrest, rfl⟩
          rw [vnListChildFree, hq cn v hb, ih hrest]
          rfl

/-- With the hidden toggle off, a hidden id never appears in the children
list of any rendered node: the children loop filters it out at every
level. -/
theorem buildNodeF_child_free {ctx : BuildCtx} {z : String}
    (hkv : ∀ k n, mapGet ctx.nm k = some n → n.id = k)
    (hz : ctx.hidden.contains z = true) (hs : ctx.showHidden = false) :
    ∀ (fuel : Nat) (n : BNode) (v : VNode),
    buildNodeF ctx fuel n = some v → vnChildFree z v = true := by
  intro fuel
  induction fuel with
  | zero =>
    intro n v hb
    rw [buildNodeF_zero] at hb
    cases hb
  | succ f2 ih =>
    intro n v hb
    obtain ⟨f2x, kids, hfx, hkids, rfl⟩ := buildNodeF_shape hb
    obtain rfl : f2x = f2 := by omega
    have hlist := kids_child_free (fun n2 v2 hb2 => ih n2 v2 hb2) hkids
    have hnotc : ((kids.map VNode.id).contains z) = false := by
      have hnmem : z ∉ kids.map VNode.id := by
        rw [buildKidsF_map_id hkv hkids]
        intro hmem
        have hvis := (List.mem_filter.1 hmem).2
        rw [Bool.and_eq_true] at hvis
        have hvis2 := hvis.2
        rw [hz, hs] at hvis2
        exact absurd hvis2 (by decide)
      simpa using hnmem
    rw [mkRendered, vnChildFree_mk]
    cases hc : (decide (kids.length > 0) || n.url.isNone) with
    | true =>
      rw [if_pos rfl]
      show (!((kids.map VNode.id).contains z) &&
        vnListChildFree z kids) = true
      rw [hnotc, hlist]
      rfl
    | false =>
      rw [if_neg Bool.false_ne_true]

theorem roots_child_free {ctx : BuildCtx} {z : String}
    (hkv : ∀ k n, mapGet ctx.nm k = some n → n.id = k)
    (hz : ctx.hidden.contains z = true) (hs : ctx.showHidden = false) :
    ∀ (fuel : Nat) (ns : List BNode) (vs : List VNode),
    buildRootsF ctx fuel ns = some vs → vnListChildFree z vs = true := by
  intro fuel ns
  induction ns with
  | nil =>
    intro vs hr
    rw [buildRootsF] at hr
    cases hr
    rfl
  | cons n rest ih =>
    intro vs hr
    cases hb : buildNodeF ctx fuel n with
    | none => rw [buildRootsF_cons_none hb] at hr; cases hr
    | some v =>
      rw [buildRootsF_cons_some hb] at hr
      rcases Option.map_eq_some'.1 hr with ⟨vs2, hrest, rfl⟩
      rw [vnListChildFree, buildNodeF_child_free hkv hz hs fuel n v hb,
        ih vs2 hrest]
      rfl

theorem kids_not_occurs {ctx : BuildCtx} {fuel : Nat} {S : List String}
    (hq : ∀ n v, buildNodeF ctx fuel n = some v → n.id ∉ S →
      ∀ a ∈ S, vnOccurs v a = false)
    (hkv : ∀ k n, mapGet ctx.nm k = some n → n.id = k) :
    ∀ {ids : List String} {vs : List VNode},
    (∀ cid ∈ ids, cid ∈ S →
      (!(ctx.hidden.contains cid) || ctx.showHidden) = false) →
    buildKidsF ctx fuel ids = some vs →
    ∀ a ∈ S, vnListOccurs vs a = false := by
  intro ids
  induction ids with
  | nil =>
    intro vs _ hk a _
    rw [buildKidsF_nil] at hk
    cases hk
    rfl
  | cons cid rest ih =>
    intro vs hnotin hk a haS
    cases hn : mapGet ctx.nm cid with
    | none =>
      rw [buildKidsF_cons_none hn] at hk
      exact ih (fun c hc => hnotin c (List.mem_cons_of_mem _ hc)) hk a haS
    | some cn =>
      cases hv : (!(ctx.hidden.contains cid) || ctx.showHidden) with
      | false =>
        rw [buildKidsF_cons_skip hn hv] at hk
        exact ih (fun c hc => hnotin c (List.mem_cons_of_mem _ hc)) hk a haS
      | true =>
        rw [buildKidsF_cons_vis hn hv] at hk
        cases hb : buildNodeF ctx fuel cn with
        | none => rw [hb] at hk; cases hk
        | some v =>
          rw [hb] at hk
          rcases Option.map_eq_some'.1 hk with ⟨vs2, hrest, rfl⟩
          have hcidS : cid ∉ S := by
            intro hmem
            have := hnotin cid (List.mem_cons_self _ _) hmem
            rw [hv] at this
            cases this
          have hnid : cn.id ∉ S := by
            rw [hkv cid cn hn]
            exact hcidS
          rw [vnListOccurs, hq cn v hb hnid a haS,
            ih (fun c hc => hnotin c (List.mem_cons_of_mem _ hc)) hrest a haS]
          rfl

/-- A set of ids entered only through the hidden id `z` (every member
other than `z` has its effective parent in the set) is never rendered
below a node outside the set when the hidden toggle is off. -/
theorem buildNodeF_not_occurs {ctx : BuildCtx} {S : List String} {z : String}
    (hkv : ∀ k n, mapGet ctx.nm k = some n → n.id = k)
    (hz : ctx.hidden.contains z = true) (hs : ctx.showHidden = false)
    (hd : ∀ a ∈ S, a ≠ z → ∀ e ∈ ctx.cm, a ∈ e.2 → e.1 ∈ S) :
    ∀ (fuel : Nat) (n : BNode) (v : VNode),
    buildNodeF ctx fuel n = some v → n.id ∉ S →
    ∀ a ∈ S, vnOccurs v a = false := by
  intro fuel
  induction fuel with
  | zero =>
    intro n v hb
    rw [buildNodeF_zero] at hb
    cases hb
  | succ f2 ih =>
    intro n v hb hnid a haS
    obtain ⟨f2x, kids, hfx, hkids, rfl⟩ := buildNodeF_shape hb
    obtain rfl : f2x = f2 := by omega
    have hnotin : ∀ cid ∈ sortedChildIds ctx n.id, cid ∈ S →
        (!(ctx.hidden.contains cid) || ctx.showHidden) = false := by
      intro cid hcid hcidS
      by_cases hcz : cid = z
      · rw [hcz, hz, hs]
        rfl
      · exfalso
        have hmem : cid ∈ (mapGet ctx.cm n.id).getD [] :=
          mem_sortedChildIds.1 hcid
        cases hcm : mapGet ctx.cm n.id with
        | none => rw [hcm] at hmem; cases hmem
        | some l =>
          rw [hcm] at hmem
          exact hnid (hd cid hcidS hcz (n.id, l) (mapGet_eq_some_mem hcm)
            hmem)
    have hlist := kids_not_occurs (fun n2 v2 hb2 hn2 => ih n2 v2 hb2 hn2)
      hkv hnotin hkids a haS
    rw [mkRendered, vnOccurs_mk]
    have hne : (n.id == a) = false := by
      simp only [beq_eq_false_iff_ne]
      intro he
      apply hnid
      rw [he]
      exact haS
    rw [hne]
    cases hc : (decide (kids.length > 0) || n.url.isNone) with
    | true =>
      rw [if_pos rfl]
      show (false || vnListOccurs kids a) = false
      rw [hlist]
      rfl
    | false =>
      rw [if_neg Bool.false_ne_true]
      rfl

theorem roots_not_occurs {ctx : BuildCtx} {S : List String} {z : String}
    (hkv : ∀ k n, mapGet ctx.nm k = some n → n.id = k)
    (hz : ctx.hidden.contains z = true) (hs : ctx.showHidden = false)
    (hd : ∀ a ∈ S, a ≠ z → ∀ e ∈ ctx.cm, a ∈ e.2 → e.1 ∈ S) :
    ∀ (fuel : Nat) (ns : List BNode) (vs : List VNode),
    (∀ n ∈ ns, n.id ∉ S) →
    buildRootsF ctx fuel ns = some vs →
    ∀ a ∈ S, vnListOccurs vs a = false := by
  intro fuel ns
  induction ns with
  | nil =>
    intro vs _ hr a _
    rw [buildRootsF] at hr
    cases hr
    rfl
  | cons n rest ih =>
    intro vs hroot hr a haS
    cases hb : buildNodeF ctx fuel n with
    | none => rw [buildRootsF_cons_none hb] at hr; cases hr
    | some v =>
      rw [buildRootsF_cons_some hb] at hr
      rcases Option.map_eq_some'.1 hr with ⟨vs2, hrest, rfl⟩
      rw [vnListOccurs,
        buildNodeF_not_occurs hkv hz hs hd fuel n v hb
          (hroot n (List.mem_cons_self _ _)) a haS,
        ih vs2 (fun m hm => hroot m (List.mem_cons_of_mem _ hm)) hrest a haS]
      rfl

theorem forall2_mem_right {R : BNode → VNode → Prop} :
    ∀ {l1 : List BNode} {l2 : List VNode}, List.Forall₂ R l1 l2 →
    ∀ w ∈ l2, ∃ cn ∈ l1, R cn w := by
  intro l1 l2 hf
  induction hf with
  | nil => intro w hw; cases hw
  | cons hr ht ih =>
    intro w hw
    rcases List.mem_cons.1 hw with rfl | hw2
    · exact ⟨_, List.mem_cons_self _ _, hr⟩
    · obtain ⟨cn, hcn, hR⟩ := ih w hw2
      exact ⟨cn, List.mem_cons_of_mem _ hcn, hR⟩

/-- Every entry of a rendered node's children list carries the hidden flag
of its own id. -/
theorem rendered_child_isHidden {ctx : BuildCtx} {fuel : Nat} {n : BNode}
    {v : VNode} (hb : buildNodeF ctx fuel n = some v) :
    ∀ w ∈ v.children.getD [], w.isHidden = ctx.hidden.contains w.id := by
  obtain ⟨f2, kids, -, hkids, rfl⟩ := buildNodeF_shape hb
  intro w hw
  have hw2 : w ∈ kids := by
    have hsplit : (mkRendered ctx n kids).children.getD [] = kids ∨
        (mkRendered ctx n kids).children.getD [] = ([] : List VNode) := by
      rw [mkRendered, VNode.children]
      cases hc : (decide (kids.length > 0) || n.url.isNone) with
      | true =>
        rw [if_pos rfl]
        left
        rfl
      | false =>
        rw [if_neg Bool.false_ne_true]
        right
        rfl
    rcases hsplit with he | he
    · rw [he] at hw
      exact hw
    · rw [he] at hw
      cases hw
  obtain ⟨cn, -, hR⟩ := forall2_mem_right (buildKidsF_forall2 hkids) w hw2
  rw [buildNodeF_isHidden hR, buildNodeF_id hR]

/-- C3 (amended): for an id h in the hidden set, (i) with showHidden off,
h appears in no rendered node's children list, at any depth; (ii) with
showHidden off, a set S of ids containing h whose members other than h
are reachable only through members of S (their effective parent entry
stays in S) and none of which is a passed top-level node is entirely
absent from the rendered output — the skipped child's whole subtree
disappears; (iii) with showHidden on, h appears among the rendered
children of its effective parent whenever that parent builds, carrying
isHidden = true.  The spec's unconditional subtree claim is false for a
hidden top-level node (rendered with its subtree, see the counterexample),
and the presence claim fails when the effective parent is never rendered
(virtualParent pointing at the synthetic root). -/
theorem c3_hidden_visibility (nodes : List BNode) (st : VirtualState)
    (fuel : Nat) (h : String) (hh : st.hidden.contains h = true) :
    (∀ out, buildVirtualTreeF nodes st false fuel = some out →
      vnListChildFree h out = true) ∧
    (∀ (S : List String) (out : List VNode),
      h ∈ S →
      (∀ a ∈ S, a ≠ h → ∀ e ∈ (mkCtx nodes st false).cm, a ∈ e.2 →
        e.1 ∈ S) →
      (∀ a ∈ S, ∀ n ∈ nodes, n.id ≠ a) →
      buildVirtualTreeF nodes st false fuel = some out →
      ∀ a ∈ S, vnListOccurs out a = false) ∧
    (∀ (p : BNode) (v : VNode) (l : List String),
      buildNodeF (mkCtx nodes st true) fuel p = some v →
      mapGet (mkCtx nodes st true).cm p.id = some l →
      h ∈ l → mapHas (mkCtx nodes st true).nm h = true →
      h ∈ v.childIds ∧
      ∀ w ∈ v.children.getD [], w.id = h → w.isHidden = true) := by
  refine ⟨?_, ?_, ?_⟩
  · intro out hbuild
    rw [buildVirtualTreeF] at hbuild
    exact roots_child_free (mkCtx_hkv nodes st false) hh rfl fuel nodes out
      hbuild
  · intro S out _ hd hroots hbuild a haS
    rw [buildVirtualTreeF] at hbuild
    refine roots_not_occurs (mkCtx_hkv nodes st false) hh rfl hd fuel nodes
      out ?_ hbuild a haS
    intro n hn hmem
    exact hroots n.id hmem n hn rfl
  · intro p v l hb hcm hmem hhas
    have hkv := mkCtx_hkv nodes st true
    constructor
    · rw [vnChildIds_of_build hkv hb]
      refine List.mem_filter.2 ⟨?_, ?_⟩
      · exact mem_sortedChildIds.2 (by rw [hcm]; exact hmem)
      · rw [Bool.and_eq_true]
        refine ⟨?_, ?_⟩
        · rcases (mapHas_true_iff _ _).1 hhas with ⟨w, hw⟩
          rw [hw]
          rfl
        · show (!(st.hidden.contains h) || true) = true
          exact Bool.or_true _
    · intro w hw hwid
      rw [rendered_child_isHidden hb w hw, hwid]
      exact hh

/-- C3 counterexample fixture: hidden top-level folder r1 with bookmark
child c1, and hidden bookmark h2 virtually re-parented to the synthetic
root. -/
def c3Forest : List BNode :=
  [BNode.mk "r1" "r1" none (some "0")
    [BNode.mk "c1" "c1" (some "uc1") (some "r1") [] none] none,
   BNode.mk "r2" "r2" none (some "0")
    [BNode.mk "h2" "h2" (some "uh2") (some "r2") [] none] none]

def c3State : VirtualState :=
  { order := [], hidden := ["r1", "h2"], titles := [],
    virtualParent := [("h2", "0")] }

def c3c1v : VNode :=
  VNode.mk "c1" "c1" (some "uc1") none (some "r1") false false none

def c3r1v : VNode :=
  VNode.mk "r1" "r1" none (some [c3c1v]) (some "0") false true none

def c3r2v : VNode :=
  VNode.mk "r2" "r2" none (some []) (some "0") false false none

/-- C3 counterexample: the full rendered output of the fixture.  With
showHidden off, hidden top-level r1 is still rendered (isHidden true) and
its child c1 appears in r1's rendered children — the hidden subtree is
not absent.  With showHidden on, hidden h2 (present in the native index)
is rendered nowhere at all — the outputs coincide and contain no h2 —
because its effective parent is the never-rendered synthetic root. -/
theorem c3_counterexample :
    c3State.hidden.contains "r1" = true ∧
    c3State.hidden.contains "h2" = true ∧
    mapHas (mkCtx c3Forest c3State true).nm "h2" = true ∧
    buildVirtualTreeF c3Forest c3State false 3 = some [c3r1v, c3r2v] ∧
    buildVirtualTreeF c3Forest c3State true 3 = some [c3r1v, c3r2v] :=
  ⟨rfl, rfl, rfl, rfl, rfl⟩

/-- C3 witness fixture: folder 1 with hidden bookmark x and visible
bookmark b. -/
def c3wRoot : BNode :=
  BNode.mk "1" "Bar" none (some "0")
    [BNode.mk "x" "x" (some "ux") (some "1") [] none,
     BNode.mk "b" "b" (some "ub") (some "1") [] none] none

def c3wForest : List BNode := [c3wRoot]

def c3wState : VirtualState :=
  { order := [], hidden := ["x"], titles := [], virtualParent := [] }

/-- C3 witness: on the fixture, with showHidden off the hidden x is in no
rendered children list and (with the singleton certificate set) absent
from the output; with showHidden on, x is among the rendered children of
folder 1 and carries isHidden = true. -/
theorem c3_witness :
    (vnListChildFree "x"
      ((buildVirtualTreeF c3wForest c3wState false 3).getD []) = true) ∧
    (vnListOccurs
      ((buildVirtualTreeF c3wForest c3wState false 3).getD []) "x" =
      false) ∧
    ("x" ∈ VNode.childIds ((buildNodeF (mkCtx c3wForest c3wState true) 3
        c3wRoot).getD defaultVNode) ∧
      ∀ w ∈ ((buildNodeF (mkCtx c3wForest c3wState true) 3
        c3wRoot).getD defaultVNode).children.getD [],
        w.id = "x" → w.isHidden = true) :=
  ⟨(c3_hidden_visibility c3wForest c3wState 3 "x" rfl).1
      ((buildVirtualTreeF c3wForest c3wState false 3).getD []) (by rfl),
   (c3_hidden_visibility c3wForest c3wState 3 "x" rfl).2.1 ["x"]
      ((buildVirtualTreeF c3wForest c3wState false 3).getD [])
      (by decide) (by decide) (by decide) (by rfl) "x" (by decide),
   (c3_hidden_visibility c3wForest c3wState 3 "x" rfl).2.2 c3wRoot
      ((buildNodeF (mkCtx c3wForest c3wState true) 3 c3wRoot).getD
        defaultVNode) ["x", "b"] (by rfl) (by rfl) (by decide) (by rfl)⟩

end Fluxmark
